import Mathlib

/-!
Verification development for the calibre-to-kavita mirror (src/lib.ts of the
repository under review).

The program is a filesystem reconciler.  We shallowly embed its core:

* strings are modelled as `List Char` (named `Str`), so that the character
  level operations of the source (regex sanitization, separator counting,
  splitting) become ordinary recursive list functions;
* JavaScript numbers produced by `parseFloat` are modelled by `JSNum`:
  either the NaN sentinel or an exact rational value (binary rounding of
  IEEE doubles and the exponential rendering of extreme magnitudes are not
  modelled; the metadata indices the program handles are small decimals);
* the filesystem is modelled as a finite association list from absolute
  path to inode number (`FS`); the hardlink count of an inode is the number
  of directory entries referencing it.  Filesystem calls fail exactly for
  the reasons the reconciler logic itself distinguishes (missing source,
  missing unlink target); spurious I/O failures are not modelled;
* `readSourceFiles` only reads the source tree, which a pass never mutates,
  so `syncFiles` is parameterised by the list of source entries it returns;
* `mkdir` with the recursive flag is idempotent directory creation, which
  the path-to-inode model renders a no-op (directories are implicit).
-/

/-- Character list model of a JavaScript string. -/
abbrev Str := List Char

/-- Whitespace as matched by the regex class used in the source
(space, tab, newline, carriage return, form feed, vertical tab). -/
def jsWhitespace (c : Char) : Bool :=
  c = ' ' || c = '\t' || c = '\n' || c = '\r' || c = '\x0c' || c = '\x0b'

/-- Characters kept by the second replace of the sanitizer:
the class of lowercase, uppercase, digits and the space. -/
def keptChar (c : Char) : Bool :=
  ('a' ≤ c && c ≤ 'z') || ('A' ≤ c && c ≤ 'Z') || ('0' ≤ c && c ≤ '9') || c = ' '

/-- Collapse consecutive spaces: a space followed by a space is dropped. -/
def squeezeSpaces : Str → Str
  | [] => []
  | [c] => [c]
  | a :: b :: rest =>
    if a = ' ' && b = ' ' then squeezeSpaces (b :: rest)
    else a :: squeezeSpaces (b :: rest)

/-- The sanitization both replaces of the source apply to a free text
component: first every whitespace run becomes one space (mapping each
whitespace character to a space and squeezing runs is equivalent to the
global regex replacement of whitespace runs), then every character outside
the kept class is stripped. -/
def sanitize (s : Str) : Str :=
  (squeezeSpaces (s.map (fun c => if jsWhitespace c then ' ' else c))).filter keptChar

/-- A JavaScript number as produced by parseFloat: NaN or a finite value,
kept as an exact rational. -/
inductive JSNum where
  | nan : JSNum
  | val : ℚ → JSNum
deriving DecidableEq

/-- Decimal digit character for `n % 10`. -/
def digitChar (n : Nat) : Char :=
  match n % 10 with
  | 0 => '0' | 1 => '1' | 2 => '2' | 3 => '3' | 4 => '4'
  | 5 => '5' | 6 => '6' | 7 => '7' | 8 => '8' | _ => '9'

/-- Digit characters of a positive natural number, most significant first;
the fuel argument (any bound above the digit count) keeps the recursion
structural. -/
def natDigitsAux : Nat → Nat → Str
  | 0, _ => []
  | fuel + 1, n => if n = 0 then [] else natDigitsAux fuel (n / 10) ++ [digitChar n]

/-- Decimal digit string of a natural number, most significant first. -/
def natDigits (n : Nat) : Str :=
  if n = 0 then ['0'] else natDigitsAux (n + 1) n

/-- Fractional decimal digits of a rational in `[0, 1)`, with fuel.
Finite double values always terminate well within the fuel. -/
def fracDigits : Nat → ℚ → Str
  | 0, _ => []
  | fuel + 1, q =>
    if q = 0 then []
    else digitChar (⌊q * 10⌋).toNat :: fracDigits fuel (q * 10 - ⌊q * 10⌋)

/-- Decimal rendering of a nonnegative rational: integer part, then a dot
and the fractional digits when the value is not an integer. -/
def ratDecimal (q : ℚ) : Str :=
  natDigits (⌊q⌋).toNat ++ (if q = (⌊q⌋ : ℚ) then [] else '.' :: fracDigits 1100 (q - ⌊q⌋))

/-- Model of the JavaScript number toString used on the series index:
NaN prints as the three letters of the NaN sentinel, finite values print
as an optionally signed integer-or-decimal numeral. -/
def JSNum.toText : JSNum → Str
  | .nan => ['N', 'a', 'N']
  | .val q => if q < 0 then '-' :: ratDecimal (-q) else ratDecimal q

/-- Model of padStart with a padding character: prepend copies of the
character until the length is at least `n`. -/
def padStart (n : Nat) (c : Char) (s : Str) : Str :=
  List.replicate (n - s.length) c ++ s

/-- ASCII decimal digit test. -/
def isDigitCh (c : Char) : Bool := '0' ≤ c && c ≤ '9'

/-- Value of a digit string read left to right. -/
def digitsToNat (s : Str) : Nat :=
  s.foldl (fun a c => a * 10 + (c.toNat - '0'.toNat)) 0

/-- Model of JavaScript parseFloat on plain decimal notation: skip leading
whitespace, optional sign, integer digits, optional dot and fraction
digits, optional exponent; NaN when no digit was consumed.  Parsing stops
at the first character that does not fit, as parseFloat does.  The named
Infinity literal and binary rounding are not modelled. -/
def parseFloat (s : Str) : JSNum :=
  let s1 := s.dropWhile jsWhitespace
  let signAndRest : ℚ × Str :=
    match s1 with
    | '-' :: r => (-1, r)
    | '+' :: r => (1, r)
    | r => (1, r)
  let sign := signAndRest.1
  let s2 := signAndRest.2
  let intPart := s2.takeWhile isDigitCh
  let s3 := s2.drop intPart.length
  let fracAndRest : Str × Str :=
    match s3 with
    | '.' :: r => (r.takeWhile isDigitCh, r.drop (r.takeWhile isDigitCh).length)
    | r => ([], r)
  let fracPart := fracAndRest.1
  let s4 := fracAndRest.2
  if intPart = [] && fracPart = [] then .nan
  else
    let mant : ℚ :=
      sign * ((digitsToNat intPart : ℚ) + (digitsToNat fracPart : ℚ) / (10 : ℚ) ^ fracPart.length)
    match s4 with
    | 'e' :: r =>
      let expAndRest : ℤ × Str :=
        match r with
        | '-' :: r2 => (-1, r2)
        | '+' :: r2 => (1, r2)
        | r2 => (1, r2)
      let eDigits := expAndRest.2.takeWhile isDigitCh
      if eDigits = [] then .val mant
      else .val (mant * (10 : ℚ) ^ (expAndRest.1 * (digitsToNat eDigits : ℤ)))
    | 'E' :: r =>
      let expAndRest : ℤ × Str :=
        match r with
        | '-' :: r2 => (-1, r2)
        | '+' :: r2 => (1, r2)
        | r2 => (1, r2)
      let eDigits := expAndRest.2.takeWhile isDigitCh
      if eDigits = [] then .val mant
      else .val (mant * (10 : ℚ) ^ (expAndRest.1 * (digitsToNat eDigits : ℤ)))
    | _ => .val mant

/-- One dc identifier entry of the validated sidecar document: its text
value (a numeric value is modelled by its textual form) and the optional
scheme attribute. -/
structure OpfIdentifier where
  text : Str
  scheme : Option Str
deriving DecidableEq

/-- One name/content meta entry of the validated sidecar document. -/
structure OpfMetaEntry where
  name : Str
  content : Str
deriving DecidableEq

/-- The metadata block of a validated sidecar document, as accepted by the
zod schema of the source: optional identifier array, optional title and
creator, optional meta array. -/
structure OpfPackageMetadata where
  dcIdentifier : Option (List OpfIdentifier)
  dcTitle : Option Str
  dcCreator : Option Str
  meta : Option (List OpfMetaEntry)
deriving DecidableEq

/-- A validated sidecar document (the package element).  The XML parsing
and zod validation of the source are not modelled: parseOpf is embedded as
its behaviour on an input that already passed validation; inputs failing
validation throw before any field logic runs. -/
structure OpfDoc where
  metadata : OpfPackageMetadata
deriving DecidableEq

/-- The normalized record parseOpf produces. -/
structure OpfMetadata where
  id : Option Str
  title : Option Str
  creator : Option Str
  series : Option Str
  seriesIndex : Option JSNum
deriving DecidableEq

/-- Field logic of parseOpf on a validated document: identifier selection
prefers the uuid scheme, then the calibre scheme, then the first entry;
series and series index come from the correspondingly named meta entries,
the index content going through parseFloat. -/
def parseOpf (doc : OpfDoc) : OpfMetadata :=
  let metadata := doc.metadata
  let identifiers :=
    ((metadata.dcIdentifier.bind
        (List.find? (fun i => i.scheme == some ("uuid".toList)))).orElse
      (fun _ => metadata.dcIdentifier.bind
        (List.find? (fun i => i.scheme == some ("calibre".toList))))).orElse
      (fun _ => metadata.dcIdentifier.bind List.head?)
  let series := metadata.meta.bind (List.find? (fun m => m.name == ("calibre:series".toList)))
  let seriesIndex :=
    metadata.meta.bind (List.find? (fun m => m.name == ("calibre:series_index".toList)))
  { id := identifiers.map (fun i => i.text)
    title := metadata.dcTitle
    creator := metadata.dcCreator
    series := series.map (fun m => m.content)
    seriesIndex :=
      match seriesIndex with
      | some m => some (parseFloat m.content)
      | none => none }

/-- JavaScript `x || dflt` on an optional string: the default is taken when
the value is absent or empty (both are falsy). -/
def jsOrDefault (x : Option Str) (dflt : Str) : Str :=
  match x with
  | none => dflt
  | some s => if s.isEmpty then dflt else s

/-- The path policy of the source: series with index places the file under
the sanitized series name with a zero padded index label, anything else
falls back to a directory and file stem built from title and creator. -/
def calculateTargetPath (metadata : OpfMetadata) : Str × Str :=
  if metadata.series = none ∨ metadata.series = some [] ∨ metadata.seriesIndex = none then
    let effectiveTitle := jsOrDefault (metadata.title.map sanitize) ("Unknown Title".toList)
    let effectiveCreator := jsOrDefault (metadata.creator.map sanitize) ("Unknown Creator".toList)
    let fileName := effectiveTitle ++ (" - ".toList) ++ effectiveCreator
    (fileName, fileName ++ (".epub".toList))
  else
    let seriesName := sanitize ((metadata.series).getD [])
    let seriesIndex := padStart 2 '0' ((metadata.seriesIndex.getD .nan).toText)
    let fileName := seriesName ++ (" - ".toList) ++ seriesIndex
    (seriesName, fileName ++ (".epub".toList))

/-! ### Filesystem model

The filesystem is a list of directory entries, each an absolute path with
the inode number it references.  Hardlinks are entries sharing an inode;
the stat nlink field is the number of entries referencing the inode. -/

/-- Filesystem state: directory entries as path/inode pairs.  Well formed
states list each path at most once. -/
structure FS where
  files : List (Str × Nat)
deriving DecidableEq

/-- Paths are listed at most once. -/
def FS.Wf (fs : FS) : Prop := (fs.files.map Prod.fst).Nodup

/-- Model of stat: the inode referenced by a path, when the path exists. -/
def FS.statIno (fs : FS) (p : Str) : Option Nat :=
  (fs.files.find? (fun e => e.1 == p)).map (fun e => e.2)

/-- Model of the stat nlink field: how many entries reference the inode. -/
def FS.nlink (fs : FS) (ino : Nat) : Nat :=
  (fs.files.filter (fun e => e.2 == ino)).length

/-- Model of the link syscall: fails when the source is missing or the
target already exists, otherwise adds a target entry sharing the source
inode. -/
def FS.link (fs : FS) (source target : Str) : Option FS :=
  match fs.statIno source, fs.statIno target with
  | some ino, none => some ⟨(target, ino) :: fs.files⟩
  | _, _ => none

/-- Model of the unlink syscall: fails when the path is missing, otherwise
removes its entry. -/
def FS.unlink (fs : FS) (p : Str) : Option FS :=
  if (fs.statIno p).isSome then some ⟨fs.files.filter (fun e => !(e.1 == p))⟩ else none

/-- Count of path separator characters, as the source computes it by
filtering the spread of the path string. -/
def countSlashes (p : Str) : Nat :=
  (p.filter (fun c => c == '/')).length

/-- The doubled separator prefix test of the source. -/
def startsDoubleSlash (p : Str) : Bool :=
  (['/', '/'] : Str).isPrefixOf p

/-- Result of safeUnlink: guard refusal (false without touching the
filesystem), successful removal (true), or an unlink error that the
function does not catch and that therefore propagates to the caller. -/
inductive UnlinkOutcome where
  | refused
  | removed
  | errored
deriving DecidableEq

/-- The safe remover: refuse paths with fewer than two separators or a
doubled leading separator; otherwise unlink, letting an unlink failure
escape (modelled as the errored outcome). -/
def safeUnlink (fs : FS) (filePath : Str) : FS × UnlinkOutcome :=
  if countSlashes filePath < 2 || startsDoubleSlash filePath then
    (fs, .refused)
  else
    match fs.unlink filePath with
    | some fs2 => (fs2, .removed)
    | none => (fs, .errored)

/-- JavaScript falsiness of the optional title: absent or empty. -/
def titleFalsy (t : Option Str) : Bool :=
  match t with
  | none => true
  | some s => s.isEmpty

/-- The template literal of the source joining the output root, the
directory component and the file component with single separators. -/
def joinPath (outDir d f : Str) : Str :=
  outDir ++ ('/' :: d) ++ ('/' :: f)

/-- The relative path of a target file below the output root. -/
def relPath (d f : Str) : Str :=
  d ++ ('/' :: f)

/-- A mutating filesystem operation performed by a pass: creating a
hardlink or removing a file.  The returned operation lists let the
theorems speak about how many links and removals a pass performs. -/
inductive FsOp where
  | mklink (source target : Str)
  | rmfile (p : Str)
deriving DecidableEq

/-- Result of linkFile: the filesystem afterwards, the returned relative
target path (null on skip or failure), and the mutations performed. -/
structure LinkOutcome where
  fs : FS
  ret : Option Str
  ops : List FsOp
deriving DecidableEq

/-- The linker of the source: skip on falsy title; compute the target
path; ensure the directory (implicit in the path model); if the target
exists with fewer than two links remove it through the safe remover and
relink (giving up, with null, if the removal is refused or fails, or if
the relink fails); if it exists with two or more links leave it and
report its relative path; otherwise create the hardlink. -/
def linkFile (outDir : Str) (fs : FS) (source : Str) (metadata : OpfMetadata) : LinkOutcome :=
  if titleFalsy metadata.title then { fs := fs, ret := none, ops := [] }
  else
    let directory := (calculateTargetPath metadata).1
    let fileName := (calculateTargetPath metadata).2
    let target := joinPath outDir directory fileName
    match fs.statIno target with
    | some ino =>
      if fs.nlink ino < 2 then
        match safeUnlink fs target with
        | (fs2, .removed) =>
          match fs2.link source target with
          | some fs3 =>
            { fs := fs3, ret := some (relPath directory fileName),
              ops := [.rmfile target, .mklink source target] }
          | none => { fs := fs2, ret := none, ops := [.rmfile target] }
        | (fs2, .refused) => { fs := fs2, ret := none, ops := [] }
        | (fs2, .errored) => { fs := fs2, ret := none, ops := [] }
      else { fs := fs, ret := some (relPath directory fileName), ops := [] }
    | none =>
      match fs.link source target with
      | some fs2 =>
        { fs := fs2, ret := some (relPath directory fileName),
          ops := [.mklink source target] }
      | none => { fs := fs, ret := none, ops := [] }

/-- JavaScript split on the separator character. -/
def jsSplitSlash : Str → List Str
  | [] => [[]]
  | c :: rest =>
    match jsSplitSlash rest with
    | [] => [[]]
    | h :: t => if c = '/' then [] :: h :: t else (c :: h) :: t

/-- Recognize an absolute path one directory below the output root:
returns the directory and file components when the path is the join of
the root with two nonempty separator-free components.  This plays the
role of the two nested readdir walks of the target scanner. -/
def parseTargetRel (outDir p : Str) : Option (Str × Str) :=
  if (outDir ++ ['/']).isPrefixOf p then
    match jsSplitSlash (p.drop (outDir.length + 1)) with
    | [d, f] => if d.isEmpty || f.isEmpty then none else some (d, f)
    | _ => none
  else none

/-- The target scanner: relative paths of the epub files lying exactly one
subdirectory below the output root.  Entries at the root itself or deeper
than one subdirectory are not listed. -/
def getFilesInTargetDir (fs : FS) (outDir : Str) : List Str :=
  fs.files.filterMap (fun e =>
    match parseTargetRel outDir e.1 with
    | some df =>
      if (".epub".toList).isSuffixOf df.2 then some (relPath df.1 df.2) else none
    | none => none)

/-- The linking loop of syncFiles: run linkFile on every source entry,
removing each successfully reported target path from the pending target
file set (the source guards the delete with a membership test, which is
the same as the unconditional removal modelled here).  Per entry failures
only affect that entry. -/
def linkPhase (outDir : Str) : List (Str × OpfMetadata) → FS → List Str → FS × List Str × List FsOp
  | [], fs, targetFiles => (fs, targetFiles, [])
  | (sourcePath, metadata) :: rest, fs, targetFiles =>
    let r := linkFile outDir fs sourcePath metadata
    let targetFiles2 :=
      match r.ret with
      | some targetPath => targetFiles.filter (fun q => !(q == targetPath))
      | none => targetFiles
    let rest2 := linkPhase outDir rest r.fs targetFiles2
    (rest2.1, rest2.2.1, r.ops ++ rest2.2.2)

/-- The pruning loop of syncFiles: for every relative path not reconfirmed
by the link loop, rebuild the absolute path from the split components (an
out of shape path yields the undefined components of the destructuring)
and remove it through the safe remover; refusals and failures are logged
and pruning continues. -/
def prunePhase (outDir : Str) : List Str → FS → FS × List FsOp
  | [], fs => (fs, [])
  | unusedFile :: rest, fs =>
    let parts := jsSplitSlash unusedFile
    let seriesName := parts.getD 0 ("undefined".toList)
    let fileName := parts.getD 1 ("undefined".toList)
    let filePath := joinPath outDir seriesName fileName
    let r := safeUnlink fs filePath
    let ops0 : List FsOp :=
      match r.2 with
      | .removed => [.rmfile filePath]
      | _ => []
    let rest2 := prunePhase outDir rest r.1
    (rest2.1, ops0 ++ rest2.2)

/-- One reconciliation pass: scan the target tree, link every source
entry while reconfirming target paths, prune the rest.  The source entry
list parameter stands for the result of readSourceFiles, which only reads
the source tree (never mutated by a pass). -/
def syncFiles (outDir : Str) (sourceFiles : List (Str × OpfMetadata)) (fs : FS) :
    FS × List FsOp :=
  let targetFiles := getFilesInTargetDir fs outDir
  let r := linkPhase outDir sourceFiles fs targetFiles
  let p := prunePhase outDir r.2.1 r.1
  (p.1, r.2.2 ++ p.2)

/-- A usable output root for the safety guard: nonempty and not starting
with a doubled separator (and not the bare separator).  Every target path
the reconciler builds below such a root passes the safe remover guard. -/
def outDirOk (outDir : Str) : Prop :=
  outDir ≠ [] ∧ startsDoubleSlash (outDir ++ ['/']) = false

/-- Whether a path lies below the output root. -/
def targetPrefixed (outDir p : Str) : Bool :=
  (outDir ++ ['/']).isPrefixOf p

/-- The absolute target path the linker computes for a metadata record. -/
def entryTargetAbs (outDir : Str) (m : OpfMetadata) : Str :=
  joinPath outDir (calculateTargetPath m).1 (calculateTargetPath m).2

/-- The relative target path the linker reports for a metadata record. -/
def entryRel (m : OpfMetadata) : Str :=
  relPath (calculateTargetPath m).1 (calculateTargetPath m).2

/-- Well placed source entries: every source file exists and lies outside
the target tree. -/
def sourcesOk (outDir : Str) (fs : FS) (sources : List (Str × OpfMetadata)) : Prop :=
  ∀ e ∈ sources, (fs.statIno e.1).isSome = true ∧ targetPrefixed outDir e.1 = false

/-- A metadata record corresponds to (reconfirms) a relative target path
when its title is usable and its computed relative path is that path. -/
def corresponds (sources : List (Str × OpfMetadata)) (u : Str) : Prop :=
  ∃ e ∈ sources, titleFalsy e.2.title = false ∧ entryRel e.2 = u

/-- Every multiply linked file below the output root shares its inode with
some path outside the target tree (true in normal operation, where target
files are hardlinks of source files). -/
def outsideLinked (outDir : Str) (fs : FS) : Prop :=
  ∀ p i, (p, i) ∈ fs.files → targetPrefixed outDir p = true → 2 ≤ fs.nlink i →
    ∃ q, targetPrefixed outDir q = false ∧ (q, i) ∈ fs.files

instance (fs : FS) : Decidable fs.Wf :=
  inferInstanceAs (Decidable ((fs.files.map Prod.fst).Nodup))

instance (outDir : Str) : Decidable (outDirOk outDir) :=
  inferInstanceAs (Decidable (outDir ≠ [] ∧ startsDoubleSlash (outDir ++ ['/']) = false))

instance (outDir : Str) (fs : FS) (sources : List (Str × OpfMetadata)) :
    Decidable (sourcesOk outDir fs sources) :=
  inferInstanceAs (Decidable (∀ e ∈ sources,
    (fs.statIno e.1).isSome = true ∧ targetPrefixed outDir e.1 = false))

instance (sources : List (Str × OpfMetadata)) (u : Str) :
    Decidable (corresponds sources u) :=
  inferInstanceAs (Decidable (∃ e ∈ sources,
    titleFalsy e.2.title = false ∧ entryRel e.2 = u))

instance (outDir : Str) (fs : FS) : Decidable (outsideLinked outDir fs) :=
  decidable_of_iff (∀ e ∈ fs.files, targetPrefixed outDir e.1 = true → 2 ≤ fs.nlink e.2 →
    ∃ e2 ∈ fs.files, targetPrefixed outDir e2.1 = false ∧ e2.2 = e.2) (by
      constructor
      · intro h p i hp hpre hge
        obtain ⟨e2, he2, hpre2, heq⟩ := h (p, i) hp hpre hge
        obtain ⟨q2, i2⟩ := e2
        have heq2 : i2 = i := heq
        subst heq2
        exact ⟨q2, hpre2, he2⟩
      · intro h e he hpre hge
        obtain ⟨q, hqpre, hqmem⟩ := h e.1 e.2 he hpre hge
        exact ⟨(q, e.2), hqmem, hqpre, rfl⟩)

/-! ### Basic facts about the path policy components -/

theorem padStart_length (n : Nat) (c : Char) (s : Str) :
    n ≤ (padStart n c s).length := by
  simp only [padStart, List.length_append, List.length_replicate]
  omega

theorem jsOrDefault_some (s dflt : Str) :
    jsOrDefault (some s) dflt = if s = [] then dflt else s := by
  simp [jsOrDefault, List.isEmpty_iff]

/-- C5: for metadata with a nonempty series and a numeric (non-NaN) series
index, the path policy returns the sanitized series as directory and the
series-dash-paddedIndex epub name as file, the index label being the
number rendering left padded with zeros to length at least two. -/
theorem calculateTargetPath_series (m : OpfMetadata) (s : Str) (q : ℚ)
    (hs : m.series = some s) (hne : s ≠ []) (hidx : m.seriesIndex = some (.val q)) :
    calculateTargetPath m =
      (sanitize s,
        sanitize s ++ (" - ".toList) ++ padStart 2 '0' ((JSNum.val q).toText) ++ (".epub".toList))
      ∧ 2 ≤ (padStart 2 '0' ((JSNum.val q).toText)).length := by
  refine ⟨?_, padStart_length 2 '0' _⟩
  have hcond : ¬ (m.series = none ∨ m.series = some [] ∨ m.seriesIndex = none) := by
    simp [hs, hidx, hne]
  unfold calculateTargetPath
  rw [if_neg hcond, hs, hidx]
  simp [List.append_assoc]

/-- C5 witness: series Books with index 1 produces the padded example of
the claim. -/
theorem calculateTargetPath_series_witness :
    calculateTargetPath
      { id := none, title := none, creator := none,
        series := some ("Books".toList), seriesIndex := some (.val 1) } =
      ("Books".toList, "Books - 01.epub".toList) := by
  rw [(calculateTargetPath_series _ ("Books".toList) 1 rfl (by decide) rfl).1]
  decide

/-- C6 counterexample: for a present title that sanitizes to the empty
string (here three exclamation marks) the source does not use the bare
sanitized title in the stem, as the claim states, but substitutes the
Unknown Title default, because the fallback of the source is applied to
the sanitized value, not to the raw field. -/
theorem calculateTargetPath_fallback_counterexample :
    (calculateTargetPath
      { id := none, title := some ("!!!".toList), creator := some ("Jane Doe".toList),
        series := none, seriesIndex := none }).1
      ≠ sanitize ("!!!".toList) ++ (" - ".toList) ++ sanitize ("Jane Doe".toList) := by
  decide

/-- C6 as amended: without a usable series+index the policy returns the
stem as both directory and file stem, where each component is the
sanitized field, the Unknown default being substituted when the field is
absent or when its sanitized value is empty. -/
theorem calculateTargetPath_fallback (m : OpfMetadata)
    (h : m.series = none ∨ m.series = some [] ∨ m.seriesIndex = none) :
    calculateTargetPath m =
      ((match m.title with
        | none => "Unknown Title".toList
        | some t => if sanitize t = [] then "Unknown Title".toList else sanitize t) ++
        (" - ".toList) ++
       (match m.creator with
        | none => "Unknown Creator".toList
        | some c => if sanitize c = [] then "Unknown Creator".toList else sanitize c),
       (match m.title with
        | none => "Unknown Title".toList
        | some t => if sanitize t = [] then "Unknown Title".toList else sanitize t) ++
        (" - ".toList) ++
       (match m.creator with
        | none => "Unknown Creator".toList
        | some c => if sanitize c = [] then "Unknown Creator".toList else sanitize c) ++
       (".epub".toList)) := by
  unfold calculateTargetPath
  rw [if_pos h]
  cases m.title with
  | none =>
    cases m.creator with
    | none => simp [jsOrDefault, List.isEmpty_iff, List.append_assoc]
    | some c => simp [jsOrDefault, List.isEmpty_iff, List.append_assoc]
  | some t =>
    cases m.creator with
    | none => simp [jsOrDefault, List.isEmpty_iff, List.append_assoc]
    | some c => simp [jsOrDefault, List.isEmpty_iff, List.append_assoc]

/-- C6 witness: a book with no series, title A Book and creator Jane Doe
lands in the directory and file of the worked example. -/
theorem calculateTargetPath_fallback_witness :
    calculateTargetPath
      { id := none, title := some ("A Book".toList), creator := some ("Jane Doe".toList),
        series := none, seriesIndex := none } =
      ("A Book - Jane Doe".toList, "A Book - Jane Doe.epub".toList) := by
  rw [calculateTargetPath_fallback _ (Or.inl rfl)]
  decide

/-- C4 counterexample: a sidecar with series Books and an unparseable
series index content does produce a NaN index, but the path policy does
not fall back to title/creator naming as the claim states; the NaN
survives the null comparison of the source and the file is named with a
literal NaN label under the series directory. -/
theorem seriesIndex_nan_counterexample :
    (parseOpf
        { metadata :=
            { dcIdentifier := none, dcTitle := some ("T".toList), dcCreator := none,
              meta := some
                [{ name := "calibre:series".toList, content := "Books".toList },
                 { name := "calibre:series_index".toList, content := "abc".toList }] } }).seriesIndex
      = some JSNum.nan ∧
    calculateTargetPath
      (parseOpf
        { metadata :=
            { dcIdentifier := none, dcTitle := some ("T".toList), dcCreator := none,
              meta := some
                [{ name := "calibre:series".toList, content := "Books".toList },
                 { name := "calibre:series_index".toList, content := "abc".toList }] } })
      = ("Books".toList, "Books - NaN.epub".toList) ∧
    ("Books".toList : Str)
      ≠ sanitize ("T".toList) ++ (" - ".toList) ++ ("Unknown Creator".toList) := by
  refine ⟨by decide, by decide, by decide⟩

/-- C4 as amended: an unparseable series index content yields the NaN
sentinel from parseOpf, and the path policy treats NaN as a present
index: with a nonempty series it stays in the series branch and renders
the index label as the letters NaN. -/
theorem seriesIndex_nan_behaviour :
    (∀ (doc : OpfDoc) (e : OpfMetaEntry),
      doc.metadata.meta.bind
          (List.find? (fun m => m.name == ("calibre:series_index".toList))) = some e →
      parseFloat e.content = JSNum.nan →
      (parseOpf doc).seriesIndex = some JSNum.nan) ∧
    (∀ (m : OpfMetadata) (s : Str),
      m.series = some s → s ≠ [] → m.seriesIndex = some JSNum.nan →
      calculateTargetPath m =
        (sanitize s, sanitize s ++ (" - ".toList) ++ ("NaN".toList) ++ (".epub".toList))) := by
  constructor
  · intro doc e hfind hnan
    simp only [parseOpf, hfind, hnan]
  · intro m s hs hne hidx
    have hcond : ¬ (m.series = none ∨ m.series = some [] ∨ m.seriesIndex = none) := by
      simp [hs, hidx, hne]
    unfold calculateTargetPath
    rw [if_neg hcond, hs, hidx]
    simp [JSNum.toText, padStart, List.append_assoc]

/-- C4 witness: the amended behaviour at the concrete sidecar of the
counterexample input. -/
theorem seriesIndex_nan_behaviour_witness :
    (parseOpf
        { metadata :=
            { dcIdentifier := none, dcTitle := some ("T".toList), dcCreator := none,
              meta := some
                [{ name := "calibre:series".toList, content := "Books".toList },
                 { name := "calibre:series_index".toList, content := "abc".toList }] } }).seriesIndex
      = some JSNum.nan ∧
    calculateTargetPath
      { id := none, title := some ("T".toList), creator := none,
        series := some ("Books".toList), seriesIndex := some JSNum.nan } =
      (sanitize ("Books".toList),
        sanitize ("Books".toList) ++ (" - ".toList) ++ ("NaN".toList) ++ (".epub".toList)) := by
  constructor
  · exact seriesIndex_nan_behaviour.1 _
      { name := "calibre:series_index".toList, content := "abc".toList } (by decide) (by decide)
  · exact seriesIndex_nan_behaviour.2 _ ("Books".toList) rfl (by decide) rfl

theorem parseOpf_id_unfold (doc : OpfDoc) (l : List OpfIdentifier)
    (hl : doc.metadata.dcIdentifier = some l) :
    (parseOpf doc).id =
      (((l.find? (fun i => i.scheme == some ("uuid".toList))).orElse
          (fun _ => l.find? (fun i => i.scheme == some ("calibre".toList)))).orElse
        (fun _ => l.head?)).map OpfIdentifier.text := by
  simp [parseOpf, hl]

/-- C7: identifier selection of parseOpf: choose a uuid scheme identifier
when one exists, else a calibre scheme identifier, else the first entry of
the identifier array, and leave the id absent when there is no identifier
array (an empty array also leaves it absent, via the first-entry case). -/
theorem parseOpf_id_selection (doc : OpfDoc) :
    (doc.metadata.dcIdentifier = none → (parseOpf doc).id = none) ∧
    (∀ l, doc.metadata.dcIdentifier = some l →
      ((∃ i ∈ l, i.scheme = some ("uuid".toList)) →
        ∃ i, l.find? (fun i => i.scheme == some ("uuid".toList)) = some i ∧
          (parseOpf doc).id = some i.text) ∧
      ((¬ ∃ i ∈ l, i.scheme = some ("uuid".toList)) →
       (∃ i ∈ l, i.scheme = some ("calibre".toList)) →
        ∃ i, l.find? (fun i => i.scheme == some ("calibre".toList)) = some i ∧
          (parseOpf doc).id = some i.text) ∧
      ((¬ ∃ i ∈ l, i.scheme = some ("uuid".toList)) →
       (¬ ∃ i ∈ l, i.scheme = some ("calibre".toList)) →
        (parseOpf doc).id = l.head?.map OpfIdentifier.text)) := by
  constructor
  · intro h
    simp [parseOpf, h]
  · intro l hl
    refine ⟨?_, ?_, ?_⟩
    · intro hex
      have hsome : (l.find? (fun i => i.scheme == some ("uuid".toList))).isSome := by
        rw [List.find?_isSome]
        obtain ⟨i, hi, hsch⟩ := hex
        exact ⟨i, hi, by simp [hsch]⟩
      obtain ⟨i, hfind⟩ := Option.isSome_iff_exists.mp hsome
      refine ⟨i, hfind, ?_⟩
      rw [parseOpf_id_unfold doc l hl, hfind]
      simp [Option.orElse]
    · intro hnua hex
      have hnone : l.find? (fun i => i.scheme == some ("uuid".toList)) = none := by
        rw [List.find?_eq_none]
        intro i hi
        simp only [beq_iff_eq]
        exact fun hsch => hnua ⟨i, hi, hsch⟩
      have hsome : (l.find? (fun i => i.scheme == some ("calibre".toList))).isSome := by
        rw [List.find?_isSome]
        obtain ⟨i, hi, hsch⟩ := hex
        exact ⟨i, hi, by simp [hsch]⟩
      obtain ⟨i, hfind⟩ := Option.isSome_iff_exists.mp hsome
      refine ⟨i, hfind, ?_⟩
      rw [parseOpf_id_unfold doc l hl, hnone, hfind]
      simp [Option.orElse]
    · intro hnua hnca
      have hnone1 : l.find? (fun i => i.scheme == some ("uuid".toList)) = none := by
        rw [List.find?_eq_none]
        intro i hi
        simp only [beq_iff_eq]
        exact fun hsch => hnua ⟨i, hi, hsch⟩
      have hnone2 : l.find? (fun i => i.scheme == some ("calibre".toList)) = none := by
        rw [List.find?_eq_none]
        intro i hi
        simp only [beq_iff_eq]
        exact fun hsch => hnca ⟨i, hi, hsch⟩
      rw [parseOpf_id_unfold doc l hl, hnone1, hnone2]
      simp [Option.orElse]

/-- C7 witness: with a calibre identifier listed before a uuid identifier,
the uuid one is selected. -/
theorem parseOpf_id_selection_witness :
    (parseOpf
        { metadata :=
            { dcIdentifier := some
                [{ text := "12".toList, scheme := some ("calibre".toList) },
                 { text := "00000000-0000-0000-0001".toList, scheme := some ("uuid".toList) }],
              dcTitle := none, dcCreator := none, meta := none } }).id
      = some ("00000000-0000-0000-0001".toList) := by
  have h := (parseOpf_id_selection
    { metadata :=
        { dcIdentifier := some
            [{ text := "12".toList, scheme := some ("calibre".toList) },
             { text := "00000000-0000-0000-0001".toList, scheme := some ("uuid".toList) }],
          dcTitle := none, dcCreator := none, meta := none } }).2
    [{ text := "12".toList, scheme := some ("calibre".toList) },
     { text := "00000000-0000-0000-0001".toList, scheme := some ("uuid".toList) }] rfl
  obtain ⟨i, hfind, hid⟩ := h.1
    ⟨({ text := "00000000-0000-0000-0001".toList, scheme := some ("uuid".toList) } :
        OpfIdentifier),
      by decide, rfl⟩
  have hconc : List.find? (fun i : OpfIdentifier => i.scheme == some ("uuid".toList))
      ([{ text := "12".toList, scheme := some ("calibre".toList) },
        { text := "00000000-0000-0000-0001".toList, scheme := some ("uuid".toList) }] :
        List OpfIdentifier) =
      some ({ text := "00000000-0000-0000-0001".toList, scheme := some ("uuid".toList) } :
        OpfIdentifier) := by
    decide
  rw [hid, Option.some.inj (hfind.symm.trans hconc)]

/-! ### Safe remover and linker guards -/

/-- C8: the safe remover refuses, without touching the filesystem, every
path with fewer than two separators or a doubled leading separator; on
any other path a deletion failure (here: the path does not exist) is not
swallowed but surfaces to the caller as the errored outcome. -/
theorem safeUnlink_spec (fs : FS) (p : Str) :
    (countSlashes p < 2 ∨ startsDoubleSlash p = true → safeUnlink fs p = (fs, .refused)) ∧
    (¬ (countSlashes p < 2 ∨ startsDoubleSlash p = true) → fs.statIno p = none →
      safeUnlink fs p = (fs, .errored)) := by
  constructor
  · intro h
    have hc : (decide (countSlashes p < 2) || startsDoubleSlash p) = true := by
      rcases h with h | h
      · simp [h]
      · simp [h]
    unfold safeUnlink
    rw [if_pos hc]
  · intro h hnone
    have hc : ¬ ((decide (countSlashes p < 2) || startsDoubleSlash p) = true) := by
      simp only [Bool.or_eq_true, decide_eq_true_eq]
      exact h
    unfold safeUnlink
    rw [if_neg hc]
    unfold FS.unlink
    rw [hnone]
    simp

/-- C8 witness: the single separator path of the test refuses on an empty
filesystem, and a two separator path that does not exist errors. -/
theorem safeUnlink_spec_witness :
    safeUnlink ⟨[]⟩ ("/root-file".toList) = (⟨[]⟩, UnlinkOutcome.refused) ∧
    safeUnlink ⟨[]⟩ ("a/b/c".toList) = (⟨[]⟩, UnlinkOutcome.errored) := by
  constructor
  · exact (safeUnlink_spec ⟨[]⟩ ("/root-file".toList)).1 (Or.inl (by decide))
  · exact (safeUnlink_spec ⟨[]⟩ ("a/b/c".toList)).2 (by decide) (by decide)

/-- C9: the linker skips an entry whose metadata has no title: it returns
null, leaves the filesystem untouched and performs no operation (in the
source the skip happens before the directory creation, the stat and any
removal or link). -/
theorem linkFile_no_title (outDir : Str) (fs : FS) (source : Str) (metadata : OpfMetadata)
    (h : metadata.title = none) :
    linkFile outDir fs source metadata = { fs := fs, ret := none, ops := [] } := by
  unfold linkFile
  rw [if_pos]
  simp [titleFalsy, h]

/-- C9 witness: a concrete no-title entry is skipped with no effect. -/
theorem linkFile_no_title_witness :
    linkFile ("o".toList) ⟨[("s".toList, 1)]⟩ ("s".toList)
      { id := none, title := none, creator := some ("C".toList),
        series := none, seriesIndex := none } =
      { fs := ⟨[("s".toList, 1)]⟩, ret := none, ops := [] } :=
  linkFile_no_title ("o".toList) ⟨[("s".toList, 1)]⟩ ("s".toList) _ rfl

/-! ### Collision and idempotence counterexamples -/

/-- C3 counterexample: two source entries (inodes 1 and 2) with identical
metadata, hence the identical target path, reconciled over a target tree
that starts empty.  After the pass the target file carries inode 1, the
inode of the FIRST processed entry, while the later source still has
inode 2: the later entry did not win the slot by overwriting. -/
theorem linkFile_collision_counterexample :
    (syncFiles ("o".toList)
        [("sA".toList,
          { id := none, title := some ("X".toList), creator := none,
            series := none, seriesIndex := none }),
         ("sB".toList,
          { id := none, title := some ("X".toList), creator := none,
            series := none, seriesIndex := none })]
        ⟨[("sA".toList, 1), ("sB".toList, 2)]⟩).1.statIno
      (joinPath ("o".toList) ("X - Unknown Creator".toList)
        ("X - Unknown Creator.epub".toList)) = some 1 ∧
    (syncFiles ("o".toList)
        [("sA".toList,
          { id := none, title := some ("X".toList), creator := none,
            series := none, seriesIndex := none }),
         ("sB".toList,
          { id := none, title := some ("X".toList), creator := none,
            series := none, seriesIndex := none })]
        ⟨[("sA".toList, 1), ("sB".toList, 2)]⟩).1.statIno ("sB".toList) = some 2 := by
  constructor
  · decide
  · decide

/-- C2 counterexample: the target tree initially holds two entries of the
same inode 9 (a pair of hardlinked target files), only one of which is
the target of the single source entry.  The first pass keeps the
confirmed target untouched (its nlink is 2) and prunes the other, which
drops the confirmed target to a single link; the second pass therefore
removes and relinks it: the second pass performs one removal and one new
hardlink, not zero. -/
theorem syncFiles_idempotence_counterexample :
    (syncFiles ("o".toList)
        [("s".toList,
          { id := none, title := some ("T".toList), creator := none,
            series := some ("A".toList), seriesIndex := some (.val 1) })]
        (syncFiles ("o".toList)
          [("s".toList,
            { id := none, title := some ("T".toList), creator := none,
              series := some ("A".toList), seriesIndex := some (.val 1) })]
          ⟨[("s".toList, 7), ("o/A/A - 01.epub".toList, 9), ("o/B/x.epub".toList, 9)]⟩).1).2 =
      [FsOp.rmfile ("o/A/A - 01.epub".toList),
       FsOp.mklink ("s".toList) ("o/A/A - 01.epub".toList)] ∧
    [FsOp.rmfile ("o/A/A - 01.epub".toList),
     FsOp.mklink ("s".toList) ("o/A/A - 01.epub".toList)] ≠ ([] : List FsOp) := by
  constructor
  · decide
  · decide

/-! ### Separator freedom of computed path components -/

theorem keptChar_ne_slash (c : Char) (h : keptChar c = true) : c ≠ '/' := by
  intro hc
  subst hc
  exact absurd h (by decide)

theorem sanitize_no_slash (s : Str) : '/' ∉ sanitize s := by
  intro hmem
  have := (List.mem_filter.mp hmem).2
  exact keptChar_ne_slash _ this rfl

theorem digitChar_ne_slash (n : Nat) : digitChar n ≠ '/' := by
  unfold digitChar
  split <;> decide

theorem natDigitsAux_no_slash (fuel n : Nat) : '/' ∉ natDigitsAux fuel n := by
  induction fuel generalizing n with
  | zero => simp [natDigitsAux]
  | succ k ih =>
    unfold natDigitsAux
    split
    · simp
    · intro hmem
      rcases List.mem_append.mp hmem with h | h
      · exact ih _ h
      · rw [List.mem_singleton] at h
        exact digitChar_ne_slash _ h.symm

theorem natDigits_no_slash (n : Nat) : '/' ∉ natDigits n := by
  unfold natDigits
  split
  · decide
  · exact natDigitsAux_no_slash _ _

theorem fracDigits_no_slash (fuel : Nat) (q : ℚ) : '/' ∉ fracDigits fuel q := by
  induction fuel generalizing q with
  | zero => simp [fracDigits]
  | succ k ih =>
    unfold fracDigits
    split
    · simp
    · intro hmem
      rcases List.mem_cons.mp hmem with h | h
      · exact digitChar_ne_slash _ h.symm
      · exact ih _ h

theorem ratDecimal_no_slash (q : ℚ) : '/' ∉ ratDecimal q := by
  unfold ratDecimal
  intro hmem
  rcases List.mem_append.mp hmem with h | h
  · exact natDigits_no_slash _ h
  · revert h
    split
    · simp
    · intro h
      rcases List.mem_cons.mp h with h | h
      · exact absurd h (by decide)
      · exact fracDigits_no_slash _ _ h

theorem toText_no_slash (n : JSNum) : '/' ∉ n.toText := by
  cases n with
  | nan => decide
  | val q =>
    simp only [JSNum.toText]
    split
    · intro hmem
      rcases List.mem_cons.mp hmem with h | h
      · exact absurd h (by decide)
      · exact ratDecimal_no_slash _ h
    · exact ratDecimal_no_slash _

theorem padStart_no_slash (n : Nat) (c : Char) (s : Str) (hc : c ≠ '/') (hs : '/' ∉ s) :
    '/' ∉ padStart n c s := by
  unfold padStart
  intro hmem
  rcases List.mem_append.mp hmem with h | h
  · exact hc (List.eq_of_mem_replicate h).symm
  · exact hs h

theorem jsOrDefault_sanitize_no_slash (x : Option Str) (d : Str) (hd : '/' ∉ d) :
    '/' ∉ jsOrDefault (x.map sanitize) d := by
  cases x with
  | none => simpa [jsOrDefault]
  | some t =>
    rw [Option.map_some', jsOrDefault]
    split
    · exact hd
    · exact sanitize_no_slash t

theorem calculateTargetPath_fst_no_slash (m : OpfMetadata) :
    '/' ∉ (calculateTargetPath m).1 := by
  unfold calculateTargetPath
  split
  · intro hmem
    rcases List.mem_append.mp hmem with h | h
    · rcases List.mem_append.mp h with h | h
      · exact jsOrDefault_sanitize_no_slash _ _ (by decide) h
      · exact absurd h (by decide)
    · exact jsOrDefault_sanitize_no_slash _ _ (by decide) h
  · exact sanitize_no_slash _

theorem calculateTargetPath_snd_no_slash (m : OpfMetadata) :
    '/' ∉ (calculateTargetPath m).2 := by
  unfold calculateTargetPath
  split
  · intro hmem
    rcases List.mem_append.mp hmem with h | h
    · rcases List.mem_append.mp h with h | h
      · rcases List.mem_append.mp h with h | h
        · exact jsOrDefault_sanitize_no_slash _ _ (by decide) h
        · exact absurd h (by decide)
      · exact jsOrDefault_sanitize_no_slash _ _ (by decide) h
    · exact absurd h (by decide)
  · intro hmem
    rcases List.mem_append.mp hmem with h | h
    · rcases List.mem_append.mp h with h | h
      · rcases List.mem_append.mp h with h | h
        · exact sanitize_no_slash _ h
        · exact absurd h (by decide)
      · exact padStart_no_slash _ _ _ (by decide) (toText_no_slash _) h
    · exact absurd h (by decide)

theorem calculateTargetPath_snd_epub (m : OpfMetadata) :
    (".epub".toList).isSuffixOf (calculateTargetPath m).2 = true := by
  rw [List.isSuffixOf_iff_suffix]
  unfold calculateTargetPath
  split
  · exact List.suffix_append _ _
  · exact List.suffix_append _ _

/-! ### Splitting and joining paths -/

theorem jsSplitSlash_ne_nil (s : Str) : jsSplitSlash s ≠ [] := by
  cases s with
  | nil => simp [jsSplitSlash]
  | cons c rest =>
    simp only [jsSplitSlash]
    split
    · simp
    · split <;> simp

theorem jsSplitSlash_parts_no_slash (s : Str) : ∀ part ∈ jsSplitSlash s, '/' ∉ part := by
  induction s with
  | nil =>
    intro part h
    simp [jsSplitSlash] at h
    subst h
    simp
  | cons c rest ih =>
    intro part hpart
    simp only [jsSplitSlash] at hpart
    rcases hsplit : jsSplitSlash rest with _ | ⟨h, t⟩
    · exact absurd hsplit (jsSplitSlash_ne_nil rest)
    · simp only [hsplit] at hpart
      by_cases hc : c = '/'
      · rw [if_pos hc] at hpart
        rcases List.mem_cons.mp hpart with h1 | h1
        · subst h1; simp
        · exact ih part (hsplit ▸ h1)
      · rw [if_neg hc] at hpart
        rcases List.mem_cons.mp hpart with h1 | h1
        · subst h1
          intro hmem
          rcases List.mem_cons.mp hmem with h2 | h2
          · exact hc h2.symm
          · exact ih h (hsplit ▸ List.mem_cons_self h t) h2
        · exact ih part (hsplit ▸ List.mem_cons_of_mem h h1)

theorem jsSplitSlash_of_no_slash (s : Str) (h : '/' ∉ s) : jsSplitSlash s = [s] := by
  induction s with
  | nil => simp [jsSplitSlash]
  | cons c rest ih =>
    have hc : ¬ c = '/' := by
      intro hc
      exact h (hc ▸ List.mem_cons_self c rest)
    have hrest : '/' ∉ rest := fun hm => h (List.mem_cons_of_mem c hm)
    simp only [jsSplitSlash, ih hrest]
    rw [if_neg hc]

theorem jsSplitSlash_append (d rest : Str) (hd : '/' ∉ d) :
    jsSplitSlash (d ++ '/' :: rest) = d :: jsSplitSlash rest := by
  induction d with
  | nil =>
    simp only [List.nil_append, jsSplitSlash]
    rcases hsplit : jsSplitSlash rest with _ | ⟨h, t⟩
    · exact absurd hsplit (jsSplitSlash_ne_nil rest)
    · simp
  | cons a d2 ih =>
    have ha : ¬ a = '/' := by
      intro ha
      exact hd (ha ▸ List.mem_cons_self a d2)
    have hd2 : '/' ∉ d2 := fun hm => hd (List.mem_cons_of_mem a hm)
    have hstep := ih hd2
    rw [List.cons_append]
    simp only [jsSplitSlash, hstep]
    rw [if_neg ha]

theorem jsSplitSlash_relPath (d f : Str) (hd : '/' ∉ d) (hf : '/' ∉ f) :
    jsSplitSlash (relPath d f) = [d, f] := by
  rw [relPath, jsSplitSlash_append d f hd, jsSplitSlash_of_no_slash f hf]

theorem jsSplitSlash_eq_single (r x : Str) (h : jsSplitSlash r = [x]) : r = x := by
  induction r generalizing x with
  | nil =>
    simp only [jsSplitSlash, List.cons.injEq, and_true] at h
    exact h
  | cons c rest ih =>
    simp only [jsSplitSlash] at h
    rcases hsplit : jsSplitSlash rest with _ | ⟨hh, t⟩
    · exact absurd hsplit (jsSplitSlash_ne_nil rest)
    · simp only [hsplit] at h
      by_cases hc : c = '/'
      · rw [if_pos hc] at h
        simp at h
      · rw [if_neg hc] at h
        rw [List.cons.injEq] at h
        obtain ⟨hx, ht⟩ := h
        rw [ht] at hsplit
        have hrest := ih hh hsplit
        rw [hrest]
        exact hx

theorem jsSplitSlash_pair_orig (r d f : Str) (h : jsSplitSlash r = [d, f]) :
    r = relPath d f := by
  induction r generalizing d f with
  | nil => simp [jsSplitSlash] at h
  | cons c rest ih =>
    simp only [jsSplitSlash] at h
    rcases hsplit : jsSplitSlash rest with _ | ⟨hh, t⟩
    · exact absurd hsplit (jsSplitSlash_ne_nil rest)
    · simp only [hsplit] at h
      by_cases hc : c = '/'
      · rw [if_pos hc] at h
        rw [List.cons.injEq, List.cons.injEq] at h
        obtain ⟨hd, hf, ht⟩ := h
        rw [ht] at hsplit
        rw [← hd, ← hf, relPath, List.nil_append, hc, jsSplitSlash_eq_single rest hh hsplit]
      · rw [if_neg hc] at h
        rw [List.cons.injEq] at h
        obtain ⟨hd, ht⟩ := h
        rw [ht] at hsplit
        have hrest := ih hh f hsplit
        rw [← hd, relPath, hrest, relPath, List.cons_append]

theorem jsSplitSlash_eq_pair (r d f : Str) (h : jsSplitSlash r = [d, f]) :
    r = relPath d f ∧ '/' ∉ d ∧ '/' ∉ f := by
  refine ⟨jsSplitSlash_pair_orig r d f h, ?_, ?_⟩
  · exact jsSplitSlash_parts_no_slash r d (h ▸ List.mem_cons_self d [f])
  · exact jsSplitSlash_parts_no_slash r f
      (h ▸ List.mem_cons_of_mem d (List.mem_cons_self f []))

theorem relPath_inj (d f d2 f2 : Str) (hd : '/' ∉ d) (hf : '/' ∉ f)
    (hd2 : '/' ∉ d2) (hf2 : '/' ∉ f2) (h : relPath d f = relPath d2 f2) :
    d = d2 ∧ f = f2 := by
  have h1 := jsSplitSlash_relPath d f hd hf
  have h2 := jsSplitSlash_relPath d2 f2 hd2 hf2
  rw [h] at h1
  rw [h1] at h2
  rw [List.cons.injEq, List.cons.injEq] at h2
  exact ⟨h2.1, h2.2.1⟩

theorem joinPath_eq (o d f : Str) : joinPath o d f = (o ++ ['/']) ++ relPath d f := by
  simp [joinPath, relPath, List.append_assoc]

theorem joinPath_inj (o d f d2 f2 : Str) (h : joinPath o d f = joinPath o d2 f2) :
    relPath d f = relPath d2 f2 := by
  rw [joinPath_eq, joinPath_eq] at h
  exact List.append_cancel_left h

theorem joinPath_rel (o d f u : Str) (h : joinPath o d f = (o ++ ['/']) ++ u) :
    relPath d f = u := by
  rw [joinPath_eq] at h
  exact List.append_cancel_left h

theorem targetPrefixed_joinPath (o d f : Str) :
    targetPrefixed o (joinPath o d f) = true := by
  rw [targetPrefixed, List.isPrefixOf_iff_prefix, joinPath_eq]
  exact List.prefix_append _ _

theorem parseTargetRel_joinPath (o d f : Str) (hd : '/' ∉ d) (hf : '/' ∉ f)
    (hdne : d ≠ []) (hfne : f ≠ []) :
    parseTargetRel o (joinPath o d f) = some (d, f) := by
  have hpre : (o ++ ['/']).isPrefixOf (joinPath o d f) = true := by
    rw [List.isPrefixOf_iff_prefix, joinPath_eq]
    exact List.prefix_append _ _
  have hlen : (o ++ ['/']).length = o.length + 1 := by simp
  have hdrop : (joinPath o d f).drop (o.length + 1) = relPath d f := by
    rw [joinPath_eq, ← hlen, List.drop_left]
  unfold parseTargetRel
  rw [if_pos hpre, hdrop, jsSplitSlash_relPath d f hd hf]
  simp [List.isEmpty_iff, hdne, hfne]

theorem parseTargetRel_some (o p d f : Str) (h : parseTargetRel o p = some (d, f)) :
    p = joinPath o d f ∧ d ≠ [] ∧ f ≠ [] ∧ '/' ∉ d ∧ '/' ∉ f := by
  unfold parseTargetRel at h
  by_cases hpre : (o ++ ['/']).isPrefixOf p = true
  · rw [if_pos hpre] at h
    obtain ⟨rest, hrest⟩ := List.isPrefixOf_iff_prefix.mp hpre
    have hlen : (o ++ ['/']).length = o.length + 1 := by simp
    have hdrop : p.drop (o.length + 1) = rest := by
      rw [← hrest, ← hlen, List.drop_left]
    rw [hdrop] at h
    split at h
    · rename_i d2 f2 heq
      split at h
      · exact absurd h (by simp)
      · rename_i hemp
        rw [Option.some.injEq, Prod.mk.injEq] at h
        obtain ⟨hd2, hf2⟩ := h
        obtain ⟨horig, hnd, hnf⟩ := jsSplitSlash_eq_pair rest d2 f2 heq
        rw [Bool.or_eq_true, not_or] at hemp
        rw [← hd2, ← hf2]
        constructor
        · rw [← hrest, horig, joinPath_eq]
        refine ⟨?_, ?_, hnd, hnf⟩
        · intro hdnil
          exact hemp.1 (by simp [hdnil])
        · intro hfnil
          exact hemp.2 (by simp [hfnil])
    · exact absurd h (by simp)
  · rw [if_neg hpre] at h
    exact absurd h (by simp)

theorem countSlashes_append (a b : Str) :
    countSlashes (a ++ b) = countSlashes a + countSlashes b := by
  simp [countSlashes, List.filter_append]

theorem countSlashes_cons_slash (s : Str) : countSlashes ('/' :: s) = countSlashes s + 1 := by
  simp [countSlashes]

theorem countSlashes_joinPath_ge (o d f : Str) : 2 ≤ countSlashes (joinPath o d f) := by
  rw [joinPath, countSlashes_append, countSlashes_append,
    countSlashes_cons_slash, countSlashes_cons_slash]
  omega

theorem startsDoubleSlash_cons2 (x y : Char) (l : Str) :
    startsDoubleSlash (x :: y :: l) = (('/' == x) && ('/' == y)) := by
  simp [startsDoubleSlash, List.isPrefixOf]

theorem startsDoubleSlash_joinPath (o d f : Str) (ho : outDirOk o) :
    startsDoubleSlash (joinPath o d f) = false := by
  obtain ⟨hne, hdd⟩ := ho
  cases o with
  | nil => exact absurd rfl hne
  | cons a o2 =>
    cases o2 with
    | nil =>
      rw [List.cons_append, List.nil_append, startsDoubleSlash_cons2] at hdd
      have hshape : joinPath [a] d f = a :: '/' :: (d ++ '/' :: f) := by
        simp [joinPath]
      have ha : ('/' == a) = false := by simpa using hdd
      rw [hshape, startsDoubleSlash_cons2]
      simp [ha]
    | cons b o3 =>
      rw [List.cons_append, List.cons_append, startsDoubleSlash_cons2] at hdd
      have hshape : joinPath (a :: b :: o3) d f =
          a :: b :: (o3 ++ ('/' :: d) ++ ('/' :: f)) := by
        simp [joinPath, List.append_assoc]
      rw [hshape, startsDoubleSlash_cons2]
      exact hdd

theorem safeUnlink_guard_false (o d f : Str) (ho : outDirOk o) :
    (decide (countSlashes (joinPath o d f) < 2) || startsDoubleSlash (joinPath o d f)) = false := by
  rw [startsDoubleSlash_joinPath o d f ho, Bool.or_false, decide_eq_false_iff_not, Nat.not_lt]
  exact countSlashes_joinPath_ge o d f

theorem safeUnlink_pass (fs : FS) (p : Str)
    (hguard : (decide (countSlashes p < 2) || startsDoubleSlash p) = false) :
    safeUnlink fs p =
      match fs.unlink p with
      | some fs2 => (fs2, .removed)
      | none => (fs, .errored) := by
  unfold safeUnlink
  rw [if_neg (by simp [hguard])]

/-! ### Filesystem state lemmas -/

theorem two_le_length_of_mem_ne {α : Type} {a b : α} {l : List α}
    (ha : a ∈ l) (hb : b ∈ l) (hne : a ≠ b) : 2 ≤ l.length := by
  cases l with
  | nil => cases ha
  | cons x t =>
    cases t with
    | nil =>
      rw [List.mem_singleton] at ha hb
      exact absurd (ha.trans hb.symm) hne
    | cons y u =>
      rw [List.length_cons, List.length_cons]
      omega

theorem FS.mem_of_statIno (fs : FS) (p : Str) (i : Nat) (h : fs.statIno p = some i) :
    (p, i) ∈ fs.files := by
  unfold FS.statIno at h
  rcases hfind : fs.files.find? (fun e => e.1 == p) with _ | e
  · rw [hfind] at h
    simp at h
  · rw [hfind] at h
    have hkey0 := List.find?_some hfind
    have hkey : e.1 = p := by simpa using hkey0
    have hmem := List.mem_of_find?_eq_some hfind
    rw [Option.map_some', Option.some.injEq] at h
    have : e = (p, i) := by
      cases e
      simp only at hkey h
      rw [hkey, h]
    exact this ▸ hmem

theorem FS.statIno_eq_some_of_mem (fs : FS) (hwf : fs.Wf) (p : Str) (i : Nat)
    (h : (p, i) ∈ fs.files) : fs.statIno p = some i := by
  obtain ⟨files⟩ := fs
  induction files with
  | nil => cases h
  | cons e t ih =>
    have hwft : FS.Wf ⟨t⟩ := (List.nodup_cons.mp hwf).2
    by_cases hkey : e.1 = p
    · have hnotin : p ∉ t.map Prod.fst := hkey ▸ (List.nodup_cons.mp hwf).1
      rcases List.mem_cons.mp h with h1 | h1
      · unfold FS.statIno
        rw [List.find?_cons_of_pos _ (by simp [hkey])]
        rw [Option.map_some', ← h1]
      · exact absurd (List.mem_map_of_mem Prod.fst h1) (by simpa using hnotin)
    · have h1 : (p, i) ∈ t := by
        rcases List.mem_cons.mp h with h2 | h2
        · exact absurd (congrArg Prod.fst h2.symm) hkey
        · exact h2
      have := ih hwft h1
      unfold FS.statIno at this ⊢
      rw [List.find?_cons_of_neg _ (by simp [hkey])]
      exact this

theorem FS.statIno_none_iff (fs : FS) (p : Str) :
    fs.statIno p = none ↔ ∀ i, (p, i) ∉ fs.files := by
  unfold FS.statIno
  rw [Option.map_eq_none', List.find?_eq_none]
  constructor
  · intro h i hmem
    exact absurd (by simp : ((p, i).1 == p) = true) (h (p, i) hmem)
  · intro h e hmem hkey
    rw [beq_iff_eq] at hkey
    have : (p, e.2) ∈ fs.files := by
      cases e
      simp only at hkey
      rw [← hkey]
      exact hmem
    exact h e.2 this

theorem FS.statIno_isSome_iff (fs : FS) (p : Str) :
    (fs.statIno p).isSome = true ↔ ∃ i, (p, i) ∈ fs.files := by
  constructor
  · intro h
    obtain ⟨i, hi⟩ := Option.isSome_iff_exists.mp h
    exact ⟨i, FS.mem_of_statIno fs p i hi⟩
  · intro ⟨i, hi⟩
    rw [Option.isSome_iff_ne_none]
    intro hnone
    exact (FS.statIno_none_iff fs p).mp hnone i hi

theorem FS.key_unique (fs : FS) (hwf : fs.Wf) (p : Str) (a b : Nat)
    (ha : (p, a) ∈ fs.files) (hb : (p, b) ∈ fs.files) : a = b := by
  have h1 := FS.statIno_eq_some_of_mem fs hwf p a ha
  have h2 := FS.statIno_eq_some_of_mem fs hwf p b hb
  rw [h1, Option.some.injEq] at h2
  exact h2

theorem FS.link_succeeds (fs : FS) (s t : Str) (ino : Nat) (hs : fs.statIno s = some ino)
    (ht : fs.statIno t = none) : fs.link s t = some ⟨(t, ino) :: fs.files⟩ := by
  unfold FS.link
  rw [hs, ht]

theorem FS.link_some (fs fs2 : FS) (s t : Str) (h : fs.link s t = some fs2) :
    ∃ ino, fs.statIno s = some ino ∧ fs.statIno t = none ∧ fs2 = ⟨(t, ino) :: fs.files⟩ := by
  unfold FS.link at h
  rcases hs : fs.statIno s with _ | ino <;> rcases ht : fs.statIno t with _ | j <;>
    rw [hs, ht] at h <;> simp at h
  exact ⟨ino, rfl, rfl, h.symm⟩

theorem FS.unlink_succeeds (fs : FS) (p : Str) (h : (fs.statIno p).isSome = true) :
    fs.unlink p = some ⟨fs.files.filter (fun e => !(e.1 == p))⟩ := by
  unfold FS.unlink
  rw [if_pos h]

theorem FS.unlink_none (fs : FS) (p : Str) (h : fs.statIno p = none) :
    fs.unlink p = none := by
  unfold FS.unlink
  rw [if_neg (by simp [h])]

theorem FS.mem_unlink (fs : FS) (p q : Str) (j : Nat) :
    (q, j) ∈ (fs.files.filter (fun e => !(e.1 == p))) ↔ (q, j) ∈ fs.files ∧ q ≠ p := by
  rw [List.mem_filter]
  simp

theorem FS.Wf.linkCons (fs : FS) (hwf : fs.Wf) (t : Str) (ino : Nat)
    (ht : fs.statIno t = none) : FS.Wf ⟨(t, ino) :: fs.files⟩ := by
  rw [FS.Wf, List.map_cons, List.nodup_cons]
  refine ⟨?_, hwf⟩
  intro hmem
  obtain ⟨e, hmem2, hfst⟩ := List.mem_map.mp hmem
  have : (t, e.2) ∈ fs.files := by
    cases e
    simp only at hfst
    rw [← hfst]
    exact hmem2
  exact (FS.statIno_none_iff fs t).mp ht e.2 this

theorem FS.Wf.filterKeep (fs : FS) (hwf : fs.Wf) (pred : Str × Nat → Bool) :
    FS.Wf ⟨fs.files.filter pred⟩ := by
  rw [FS.Wf]
  exact hwf.sublist (List.Sublist.map Prod.fst (List.filter_sublist fs.files))

theorem FS.nlink_cons (fs : FS) (t : Str) (j i : Nat) :
    FS.nlink ⟨(t, j) :: fs.files⟩ i = fs.nlink i + (if j = i then 1 else 0) := by
  unfold FS.nlink
  rw [List.filter_cons]
  by_cases hj : j = i
  · rw [if_pos (by simp [hj]), if_pos hj]
    simp
  · rw [if_neg (by simp [hj]), if_neg hj]
    simp

theorem FS.nlink_pos (fs : FS) (p : Str) (i : Nat) (h : (p, i) ∈ fs.files) :
    1 ≤ fs.nlink i := by
  unfold FS.nlink
  have : (p, i) ∈ fs.files.filter (fun e => e.2 == i) :=
    List.mem_filter.mpr ⟨h, by simp⟩
  exact List.length_pos.mpr (List.ne_nil_of_mem this)

theorem FS.nlink_two (fs : FS) (p q : Str) (i : Nat)
    (hp : (p, i) ∈ fs.files) (hq : (q, i) ∈ fs.files) (hne : p ≠ q) :
    2 ≤ fs.nlink i := by
  unfold FS.nlink
  have h1 : (p, i) ∈ fs.files.filter (fun e => e.2 == i) :=
    List.mem_filter.mpr ⟨hp, by simp⟩
  have h2 : (q, i) ∈ fs.files.filter (fun e => e.2 == i) :=
    List.mem_filter.mpr ⟨hq, by simp⟩
  exact two_le_length_of_mem_ne h1 h2 (by simp [hne])

theorem FS.nlink_filter_keyne (fs : FS) (hwf : fs.Wf) (v : Str) (i0 i : Nat)
    (hv : (v, i0) ∈ fs.files) (hne : i ≠ i0) :
    FS.nlink ⟨fs.files.filter (fun e => !(e.1 == v))⟩ i = fs.nlink i := by
  unfold FS.nlink
  rw [List.filter_comm]
  congr 1
  apply List.filter_eq_self.mpr
  intro e hmem
  obtain ⟨hmem2, hino⟩ := List.mem_filter.mp hmem
  rw [beq_iff_eq] at hino
  simp only [Bool.not_eq_true', beq_eq_false_iff_ne, ne_eq]
  intro hkey
  have : (v, e.2) ∈ fs.files := by
    cases e
    simp only at hkey hino
    rw [← hkey]
    exact hmem2
  have := FS.key_unique fs hwf v e.2 i0 this hv
  rw [hino] at this
  exact hne this

/-! ### Safe remover outcome lemmas -/

theorem safeUnlink_refused_eq (fs fs2 : FS) (p : Str)
    (h : safeUnlink fs p = (fs2, .refused)) : fs2 = fs := by
  unfold safeUnlink at h
  split at h
  · rw [Prod.mk.injEq] at h
    exact h.1.symm
  · split at h
    · rw [Prod.mk.injEq] at h
      exact absurd h.2 (by simp)
    · rw [Prod.mk.injEq] at h
      exact absurd h.2 (by simp)

theorem safeUnlink_errored_eq (fs fs2 : FS) (p : Str)
    (h : safeUnlink fs p = (fs2, .errored)) : fs2 = fs := by
  unfold safeUnlink at h
  split at h
  · rw [Prod.mk.injEq] at h
    exact absurd h.2 (by simp)
  · split at h
    · rw [Prod.mk.injEq] at h
      exact absurd h.2 (by simp)
    · rw [Prod.mk.injEq] at h
      exact h.1.symm

theorem safeUnlink_removed_eq (fs fs2 : FS) (p : Str)
    (h : safeUnlink fs p = (fs2, .removed)) :
    fs2 = ⟨fs.files.filter (fun e => !(e.1 == p))⟩ := by
  unfold safeUnlink at h
  split at h
  · rw [Prod.mk.injEq] at h
    exact absurd h.2 (by simp)
  · rename_i hunlink
    split at h
    · rename_i fs3 hsome
      unfold FS.unlink at hsome
      split at hsome
      · rw [Prod.mk.injEq] at h
        rw [Option.some.injEq] at hsome
        rw [← h.1, ← hsome]
      · exact absurd hsome (by simp)
    · rw [Prod.mk.injEq] at h
      exact absurd h.2 (by simp)

/-! ### Stat after removal -/

theorem FS.statIno_filter_ne (fs : FS) (v p : Str) (hne : p ≠ v) :
    FS.statIno ⟨fs.files.filter (fun e => !(e.1 == v))⟩ p = fs.statIno p := by
  unfold FS.statIno
  congr 1
  induction fs.files with
  | nil => rfl
  | cons e t ih =>
    rw [List.filter_cons]
    by_cases hkey : e.1 = v
    · rw [if_neg (by simp [hkey])]
      rw [List.find?_cons_of_neg _ (by simp [hkey]; exact fun h => hne h.symm)]
      exact ih
    · rw [if_pos (by simp [hkey])]
      by_cases hkey2 : e.1 = p
      · rw [List.find?_cons_of_pos _ (by simp [hkey2]),
          List.find?_cons_of_pos _ (by simp [hkey2])]
      · rw [List.find?_cons_of_neg _ (by simp [hkey2]),
          List.find?_cons_of_neg _ (by simp [hkey2])]
        exact ih

theorem FS.statIno_filter_self (fs : FS) (v : Str) :
    FS.statIno ⟨fs.files.filter (fun e => !(e.1 == v))⟩ v = none := by
  rw [FS.statIno_none_iff]
  intro i hmem
  exact ((FS.mem_unlink fs v v i).mp hmem).2 rfl

/-! ### Linker branch analysis -/

theorem linkFile_cases (outDir : Str) (fs : FS) (s : Str) (m : OpfMetadata) :
    (linkFile outDir fs s m).fs = fs ∨
    (∃ j, fs.statIno s = some j ∧ fs.statIno (entryTargetAbs outDir m) = none ∧
      (linkFile outDir fs s m).fs = ⟨(entryTargetAbs outDir m, j) :: fs.files⟩) ∨
    (∃ i0 j, fs.statIno (entryTargetAbs outDir m) = some i0 ∧ fs.nlink i0 < 2 ∧
      fs.statIno s = some j ∧ s ≠ entryTargetAbs outDir m ∧
      (linkFile outDir fs s m).fs =
        ⟨(entryTargetAbs outDir m, j) ::
          fs.files.filter (fun e => !(e.1 == entryTargetAbs outDir m))⟩) ∨
    (∃ i0, fs.statIno (entryTargetAbs outDir m) = some i0 ∧ fs.nlink i0 < 2 ∧
      (linkFile outDir fs s m).fs =
        ⟨fs.files.filter (fun e => !(e.1 == entryTargetAbs outDir m))⟩) := by
  by_cases hf : titleFalsy m.title = true
  · left
    simp [linkFile, hf]
  · simp only [linkFile, if_neg hf, entryTargetAbs]
    set T := joinPath outDir (calculateTargetPath m).1 (calculateTargetPath m).2 with hT
    rcases hstat : fs.statIno T with _ | i0
    · rcases hlink : fs.link s T with _ | fs2
      · left
        rfl
      · obtain ⟨j, hs, ht, hfs2⟩ := FS.link_some fs fs2 s T hlink
        right; left
        exact ⟨j, hs, rfl, hfs2⟩
    · by_cases hlt : fs.nlink i0 < 2
      · rcases hsu : safeUnlink fs T with ⟨fs2, oc⟩
        cases oc with
        | refused =>
          left
          have hfs2 := safeUnlink_refused_eq fs fs2 T hsu
          simp only [if_pos hlt, hsu]
          exact hfs2
        | errored =>
          left
          have hfs2 := safeUnlink_errored_eq fs fs2 T hsu
          simp only [if_pos hlt, hsu]
          exact hfs2
        | removed =>
          have hfs2 := safeUnlink_removed_eq fs fs2 T hsu
          rcases hlink : fs2.link s T with _ | fs3
          · right; right; right
            refine ⟨i0, rfl, hlt, ?_⟩
            simp only [if_pos hlt, hsu, hlink]
            exact hfs2
          · obtain ⟨j, hs2, ht2, hfs3⟩ := FS.link_some fs2 fs3 s T hlink
            have hsne : s ≠ T := by
              intro heq
              rw [heq, hfs2, FS.statIno_filter_self] at hs2
              exact absurd hs2 (by simp)
            have hs : fs.statIno s = some j := by
              rw [hfs2, FS.statIno_filter_ne fs T s hsne] at hs2
              exact hs2
            right; right; left
            refine ⟨i0, j, rfl, hlt, hs, hsne, ?_⟩
            simp only [if_pos hlt, hsu, hlink]
            rw [hfs3, hfs2]
      · left
        simp only [if_neg hlt]

theorem linkFile_frame (outDir : Str) (fs : FS) (s : Str) (m : OpfMetadata)
    (p : Str) (i : Nat) (hne : p ≠ entryTargetAbs outDir m) :
    (p, i) ∈ (linkFile outDir fs s m).fs.files ↔ (p, i) ∈ fs.files := by
  rcases linkFile_cases outDir fs s m with h | ⟨j, _, _, h⟩ | ⟨i0, j, _, _, _, _, h⟩ |
    ⟨i0, _, _, h⟩ <;> rw [h]
  · constructor
    · intro hc
      rcases List.mem_cons.mp hc with hc | hc
      · exact absurd (by simpa using congrArg Prod.fst hc) hne
      · exact hc
    · exact fun hc => List.mem_cons_of_mem _ hc
  · constructor
    · intro hc
      rcases List.mem_cons.mp hc with hc | hc
      · exact absurd (by simpa using congrArg Prod.fst hc) hne
      · exact ((FS.mem_unlink fs _ p i).mp hc).1
    · intro hc
      exact List.mem_cons_of_mem _ ((FS.mem_unlink fs _ p i).mpr ⟨hc, hne⟩)
  · constructor
    · intro hc
      exact ((FS.mem_unlink fs _ p i).mp hc).1
    · intro hc
      exact (FS.mem_unlink fs _ p i).mpr ⟨hc, hne⟩

theorem linkFile_wf (outDir : Str) (fs : FS) (s : Str) (m : OpfMetadata)
    (hwf : fs.Wf) : (linkFile outDir fs s m).fs.Wf := by
  rcases linkFile_cases outDir fs s m with h | ⟨j, _, ht, h⟩ | ⟨i0, j, _, _, _, _, h⟩ |
    ⟨i0, _, _, h⟩ <;> rw [h]
  · exact hwf
  · exact FS.Wf.linkCons fs hwf _ j ht
  · have hwf2 := FS.Wf.filterKeep fs hwf (fun e => !(e.1 == entryTargetAbs outDir m))
    exact FS.Wf.linkCons _ hwf2 _ j (FS.statIno_filter_self fs _)
  · exact FS.Wf.filterKeep fs hwf _

theorem linkFile_pres_ge2 (outDir : Str) (fs : FS) (s : Str) (m : OpfMetadata)
    (hwf : fs.Wf) (p : Str) (i : Nat) (hp : (p, i) ∈ fs.files) (hge : 2 ≤ fs.nlink i) :
    (p, i) ∈ (linkFile outDir fs s m).fs.files ∧ 2 ≤ (linkFile outDir fs s m).fs.nlink i := by
  rcases linkFile_cases outDir fs s m with h | ⟨j, _, ht, h⟩ | ⟨i0, j, hstat, hlt, _, _, h⟩ |
    ⟨i0, hstat, hlt, h⟩ <;> rw [h]
  · exact ⟨hp, hge⟩
  · refine ⟨List.mem_cons_of_mem _ hp, ?_⟩
    rw [FS.nlink_cons]
    omega
  · have hpne : p ≠ entryTargetAbs outDir m := by
      intro heq
      have := FS.statIno_eq_some_of_mem fs hwf p i hp
      rw [heq, hstat, Option.some.injEq] at this
      rw [this] at hlt
      omega
    have hine : i ≠ i0 := by
      intro heq
      rw [heq] at hge
      omega
    have hT := FS.mem_of_statIno fs _ i0 hstat
    refine ⟨List.mem_cons_of_mem _ ((FS.mem_unlink fs _ p i).mpr ⟨hp, hpne⟩), ?_⟩
    rw [FS.nlink_cons, FS.nlink_filter_keyne fs hwf _ i0 i hT hine]
    split <;> omega
  · have hpne : p ≠ entryTargetAbs outDir m := by
      intro heq
      have := FS.statIno_eq_some_of_mem fs hwf p i hp
      rw [heq, hstat, Option.some.injEq] at this
      rw [this] at hlt
      omega
    have hine : i ≠ i0 := by
      intro heq
      rw [heq] at hge
      omega
    have hT := FS.mem_of_statIno fs _ i0 hstat
    refine ⟨(FS.mem_unlink fs _ p i).mpr ⟨hp, hpne⟩, ?_⟩
    rw [FS.nlink_filter_keyne fs hwf _ i0 i hT hine]
    exact hge

theorem linkFile_mem_new (outDir : Str) (fs : FS) (s : Str) (m : OpfMetadata)
    (p : Str) (i : Nat) (hp : (p, i) ∈ (linkFile outDir fs s m).fs.files) :
    (p, i) ∈ fs.files ∨ p = entryTargetAbs outDir m := by
  by_cases hne : p = entryTargetAbs outDir m
  · exact Or.inr hne
  · exact Or.inl ((linkFile_frame outDir fs s m p i hne).mp hp)

theorem linkFile_falsy (outDir : Str) (fs : FS) (s : Str) (m : OpfMetadata)
    (h : titleFalsy m.title = true) :
    linkFile outDir fs s m = ⟨fs, none, []⟩ := by
  simp [linkFile, h]

theorem linkFile_exists_ge2 (outDir : Str) (fs : FS) (s : Str) (m : OpfMetadata)
    (hf : titleFalsy m.title = false) (i : Nat)
    (hstat : fs.statIno (entryTargetAbs outDir m) = some i)
    (hge : 2 ≤ fs.nlink i) :
    linkFile outDir fs s m = ⟨fs, some (entryRel m), []⟩ := by
  have hf2 : ¬ titleFalsy m.title = true := by simp [hf]
  rw [entryTargetAbs] at hstat
  simp only [linkFile, if_neg hf2, hstat]
  rw [if_neg (by omega)]
  simp only [entryRel]

theorem linkFile_ret_some (outDir : Str) (fs : FS) (s : Str) (m : OpfMetadata) (tp : Str)
    (h : (linkFile outDir fs s m).ret = some tp) : tp = entryRel m := by
  by_cases hf : titleFalsy m.title = true
  · rw [linkFile_falsy outDir fs s m hf] at h
    exact absurd h (by simp)
  · simp only [linkFile, if_neg hf] at h
    rcases hstat : fs.statIno
        (joinPath outDir (calculateTargetPath m).1 (calculateTargetPath m).2) with _ | i0 <;>
      simp only [hstat] at h
    · rcases hlink : fs.link s
          (joinPath outDir (calculateTargetPath m).1 (calculateTargetPath m).2) with _ | fs2 <;>
        simp only [hlink] at h
      · exact absurd h (by simp)
      · simp only [Option.some.injEq] at h
        rw [entryRel, ← h]
    · by_cases hlt : fs.nlink i0 < 2
      · simp only [if_pos hlt] at h
        rcases hsu : safeUnlink fs
            (joinPath outDir (calculateTargetPath m).1 (calculateTargetPath m).2) with ⟨fs2, oc⟩
        rw [hsu] at h
        cases oc with
        | refused => exact absurd h (by simp)
        | errored => exact absurd h (by simp)
        | removed =>
          rcases hlink : fs2.link s
              (joinPath outDir (calculateTargetPath m).1 (calculateTargetPath m).2) with _ | fs3 <;>
            simp only [hlink] at h
          · exact absurd h (by simp)
          · simp only [Option.some.injEq] at h
            rw [entryRel, ← h]
      · simp only [if_neg hlt, Option.some.injEq] at h
        rw [entryRel, ← h]

theorem linkFile_success (outDir : Str) (fs : FS) (s : Str) (m : OpfMetadata)
    (hwf : fs.Wf) (hf : titleFalsy m.title = false) (j : Nat)
    (hsrc : fs.statIno s = some j) (hsne : s ≠ entryTargetAbs outDir m)
    (hguard : (decide (countSlashes (entryTargetAbs outDir m) < 2) ||
      startsDoubleSlash (entryTargetAbs outDir m)) = false) :
    (linkFile outDir fs s m).ret = some (entryRel m) ∧
    ∃ i, (entryTargetAbs outDir m, i) ∈ (linkFile outDir fs s m).fs.files ∧
      2 ≤ (linkFile outDir fs s m).fs.nlink i := by
  have hf2 : ¬ titleFalsy m.title = true := by simp [hf]
  unfold entryTargetAbs at hguard hsne ⊢
  simp only [linkFile, if_neg hf2, entryRel]
  set T := joinPath outDir (calculateTargetPath m).1 (calculateTargetPath m).2 with hT
  have hTs : T ≠ s := fun hx => hsne hx.symm
  rcases hstat : fs.statIno T with _ | i0
  · have hlink := FS.link_succeeds fs s T j hsrc hstat
    simp only [hlink]
    refine ⟨trivial, j, List.mem_cons_self _ _, ?_⟩
    have hsmem := FS.mem_of_statIno fs s j hsrc
    exact FS.nlink_two ⟨(T, j) :: fs.files⟩ T s j (List.mem_cons_self _ _)
      (List.mem_cons_of_mem _ hsmem) hTs
  · by_cases hlt : fs.nlink i0 < 2
    · have hpass := safeUnlink_pass fs T hguard
      have hunlink := FS.unlink_succeeds fs T (by rw [hstat]; rfl)
      have hsu : safeUnlink fs T =
          (⟨fs.files.filter (fun e => !(e.1 == T))⟩, .removed) := by
        rw [hpass, hunlink]
      simp only [if_pos hlt, hsu]
      have hs2 : FS.statIno ⟨fs.files.filter (fun e => !(e.1 == T))⟩ s = some j := by
        rw [FS.statIno_filter_ne fs T s hsne]
        exact hsrc
      have ht2 := FS.statIno_filter_self fs T
      have hlink := FS.link_succeeds _ s T j hs2 ht2
      simp only [hlink]
      refine ⟨trivial, j, List.mem_cons_self _ _, ?_⟩
      have hsmem : (s, j) ∈ fs.files.filter (fun e => !(e.1 == T)) :=
        (FS.mem_unlink fs T s j).mpr ⟨FS.mem_of_statIno fs s j hsrc, hsne⟩
      exact FS.nlink_two _ T s j (List.mem_cons_self _ _)
        (List.mem_cons_of_mem _ hsmem) hTs
    · simp only [if_neg hlt]
      exact ⟨trivial, i0, FS.mem_of_statIno fs T i0 hstat, by omega⟩

theorem linkFile_success_outside (outDir : Str) (fs : FS) (s : Str) (m : OpfMetadata)
    (hwf : fs.Wf) (hf : titleFalsy m.title = false) (j : Nat)
    (hsrc : fs.statIno s = some j) (hsne : s ≠ entryTargetAbs outDir m)
    (hps : targetPrefixed outDir s = false)
    (houtside : outsideLinked outDir fs)
    (hguard : (decide (countSlashes (entryTargetAbs outDir m) < 2) ||
      startsDoubleSlash (entryTargetAbs outDir m)) = false) :
    (linkFile outDir fs s m).ret = some (entryRel m) ∧
    ∃ i q, (entryTargetAbs outDir m, i) ∈ (linkFile outDir fs s m).fs.files ∧
      (q, i) ∈ (linkFile outDir fs s m).fs.files ∧ targetPrefixed outDir q = false := by
  have hf2 : ¬ titleFalsy m.title = true := by simp [hf]
  unfold entryTargetAbs at hguard hsne ⊢
  simp only [linkFile, if_neg hf2, entryRel]
  set T := joinPath outDir (calculateTargetPath m).1 (calculateTargetPath m).2 with hT
  rcases hstat : fs.statIno T with _ | i0
  · have hlink := FS.link_succeeds fs s T j hsrc hstat
    simp only [hlink]
    refine ⟨trivial, j, s, List.mem_cons_self _ _, ?_, hps⟩
    exact List.mem_cons_of_mem _ (FS.mem_of_statIno fs s j hsrc)
  · by_cases hlt : fs.nlink i0 < 2
    · have hpass := safeUnlink_pass fs T hguard
      have hunlink := FS.unlink_succeeds fs T (by rw [hstat]; rfl)
      have hsu : safeUnlink fs T =
          (⟨fs.files.filter (fun e => !(e.1 == T))⟩, .removed) := by
        rw [hpass, hunlink]
      simp only [if_pos hlt, hsu]
      have hs2 : FS.statIno ⟨fs.files.filter (fun e => !(e.1 == T))⟩ s = some j := by
        rw [FS.statIno_filter_ne fs T s hsne]
        exact hsrc
      have ht2 := FS.statIno_filter_self fs T
      have hlink := FS.link_succeeds _ s T j hs2 ht2
      simp only [hlink]
      refine ⟨trivial, j, s, List.mem_cons_self _ _, ?_, hps⟩
      exact List.mem_cons_of_mem _
        ((FS.mem_unlink fs T s j).mpr ⟨FS.mem_of_statIno fs s j hsrc, hsne⟩)
    · simp only [if_neg hlt]
      have hTmem := FS.mem_of_statIno fs T i0 hstat
      have hTpre : targetPrefixed outDir T = true := by
        rw [hT]
        exact targetPrefixed_joinPath outDir _ _
      obtain ⟨q, hqpre, hqmem⟩ := houtside T i0 hTmem hTpre (by omega)
      exact ⟨trivial, i0, q, hTmem, hqmem, hqpre⟩

/-! ### Link phase lemmas -/

theorem not_prefixed_ne_target (outDir p : Str) (m : OpfMetadata)
    (h : targetPrefixed outDir p = false) : p ≠ entryTargetAbs outDir m := by
  intro heq
  rw [heq, entryTargetAbs, targetPrefixed_joinPath] at h
  exact absurd h (by simp)

theorem linkPhase_wf (outDir : Str) (es : List (Str × OpfMetadata)) (fs : FS) (tf : List Str)
    (hwf : fs.Wf) : (linkPhase outDir es fs tf).1.Wf := by
  induction es generalizing fs tf with
  | nil => exact hwf
  | cons e rest ih =>
    obtain ⟨s, m⟩ := e
    exact ih (linkFile outDir fs s m).fs _ (linkFile_wf outDir fs s m hwf)

theorem linkPhase_frame (outDir : Str) (es : List (Str × OpfMetadata)) (fs : FS)
    (tf : List Str) (p : Str) (i : Nat)
    (hne : ∀ e ∈ es, titleFalsy e.2.title = true ∨ p ≠ entryTargetAbs outDir e.2) :
    ((p, i) ∈ (linkPhase outDir es fs tf).1.files ↔ (p, i) ∈ fs.files) := by
  induction es generalizing fs tf with
  | nil => exact Iff.rfl
  | cons e rest ih =>
    obtain ⟨s, m⟩ := e
    have h1 : (p, i) ∈ (linkFile outDir fs s m).fs.files ↔ (p, i) ∈ fs.files := by
      rcases hne (s, m) (List.mem_cons_self _ _) with hft | hne1
      · rw [linkFile_falsy outDir fs s m hft]
      · exact linkFile_frame outDir fs s m p i hne1
    have h2 := ih (linkFile outDir fs s m).fs
      (match (linkFile outDir fs s m).ret with
        | some targetPath => tf.filter (fun q => !(q == targetPath))
        | none => tf)
      (fun e he => hne e (List.mem_cons_of_mem _ he))
    exact h2.trans h1

theorem linkPhase_remaining_subset (outDir : Str) (es : List (Str × OpfMetadata))
    (fs : FS) (tf : List Str) :
    ∀ u ∈ (linkPhase outDir es fs tf).2.1, u ∈ tf := by
  induction es generalizing fs tf with
  | nil => exact fun u hu => hu
  | cons e rest ih =>
    obtain ⟨s, m⟩ := e
    intro u hu
    have := ih (linkFile outDir fs s m).fs
      (match (linkFile outDir fs s m).ret with
        | some targetPath => tf.filter (fun q => !(q == targetPath))
        | none => tf) u hu
    revert this
    rcases (linkFile outDir fs s m).ret with _ | tp
    · exact fun h => h
    · exact fun h => List.mem_of_mem_filter h

theorem linkPhase_stale_kept (outDir : Str) (es : List (Str × OpfMetadata))
    (fs : FS) (tf : List Str) (u : Str) (hu : u ∈ tf)
    (hnc : ∀ e ∈ es, ¬(titleFalsy e.2.title = false ∧ entryRel e.2 = u)) :
    u ∈ (linkPhase outDir es fs tf).2.1 := by
  induction es generalizing fs tf with
  | nil => exact hu
  | cons e rest ih =>
    obtain ⟨s, m⟩ := e
    have hrest : ∀ e ∈ rest, ¬(titleFalsy e.2.title = false ∧ entryRel e.2 = u) :=
      fun e he => hnc e (List.mem_cons_of_mem _ he)
    rcases hret : (linkFile outDir fs s m).ret with _ | tp
    · have := ih (linkFile outDir fs s m).fs
        (match (linkFile outDir fs s m).ret with
          | some targetPath => tf.filter (fun q => !(q == targetPath))
          | none => tf) (by rw [hret]; exact hu) hrest
      exact this
    · have htp := linkFile_ret_some outDir fs s m tp hret
      have hfalsy : titleFalsy m.title = false := by
        rcases hft : titleFalsy m.title with _ | _
        · rfl
        · rw [linkFile_falsy outDir fs s m hft] at hret
          exact absurd hret (by simp)
      have hne : ¬ (u == tp) = true := by
        rw [beq_iff_eq]
        intro heq
        exact hnc (s, m) (List.mem_cons_self _ _) ⟨hfalsy, by rw [htp.symm, heq]⟩
      have hu2 : u ∈ tf.filter (fun q => !(q == tp)) :=
        List.mem_filter.mpr ⟨hu, by simp [hne]⟩
      have := ih (linkFile outDir fs s m).fs
        (match (linkFile outDir fs s m).ret with
          | some targetPath => tf.filter (fun q => !(q == targetPath))
          | none => tf) (by rw [hret]; exact hu2) hrest
      exact this

theorem linkPhase_pres_ge2 (outDir : Str) (es : List (Str × OpfMetadata)) (fs : FS)
    (tf : List Str) (hwf : fs.Wf) (p : Str) (i : Nat)
    (hp : (p, i) ∈ fs.files) (hge : 2 ≤ fs.nlink i) :
    (p, i) ∈ (linkPhase outDir es fs tf).1.files ∧
      2 ≤ (linkPhase outDir es fs tf).1.nlink i := by
  induction es generalizing fs tf with
  | nil => exact ⟨hp, hge⟩
  | cons e rest ih =>
    obtain ⟨s, m⟩ := e
    obtain ⟨hp2, hge2⟩ := linkFile_pres_ge2 outDir fs s m hwf p i hp hge
    exact ih (linkFile outDir fs s m).fs _ (linkFile_wf outDir fs s m hwf) hp2 hge2

theorem linkPhase_mem_new (outDir : Str) (es : List (Str × OpfMetadata)) (fs : FS)
    (tf : List Str) (p : Str) (i : Nat)
    (hp : (p, i) ∈ (linkPhase outDir es fs tf).1.files) :
    (p, i) ∈ fs.files ∨
      ∃ e ∈ es, titleFalsy e.2.title = false ∧ p = entryTargetAbs outDir e.2 := by
  induction es generalizing fs tf with
  | nil => exact Or.inl hp
  | cons e rest ih =>
    obtain ⟨s, m⟩ := e
    rcases ih (linkFile outDir fs s m).fs
      (match (linkFile outDir fs s m).ret with
        | some targetPath => tf.filter (fun q => !(q == targetPath))
        | none => tf) hp with h | ⟨e2, he2, ht2, hp2⟩
    · by_cases hft : titleFalsy m.title = true
      · rw [linkFile_falsy outDir fs s m hft] at h
        exact Or.inl h
      · rcases linkFile_mem_new outDir fs s m p i h with h2 | h2
        · exact Or.inl h2
        · exact Or.inr ⟨(s, m), List.mem_cons_self _ _, by simpa using hft, h2⟩
    · exact Or.inr ⟨e2, List.mem_cons_of_mem _ he2, ht2, hp2⟩

theorem linkFile_outside (outDir : Str) (fs : FS) (s : Str) (m : OpfMetadata)
    (hwf : fs.Wf) (hps : targetPrefixed outDir s = false)
    (houtside : outsideLinked outDir fs) :
    outsideLinked outDir (linkFile outDir fs s m).fs := by
  rcases linkFile_cases outDir fs s m with h | ⟨j, hs, ht, h⟩ |
    ⟨i0, j, hstat, hlt, hs, hsne, h⟩ | ⟨i0, hstat, hlt, h⟩ <;> rw [h]
  · exact houtside
  · intro p i hp hpre hge
    have hsmem := FS.mem_of_statIno fs s j hs
    by_cases hij : i = j
    · subst hij
      exact ⟨s, hps, List.mem_cons_of_mem _ hsmem⟩
    · have hpmem : (p, i) ∈ fs.files := by
        rcases List.mem_cons.mp hp with h2 | h2
        · injection h2 with h2a h2b
          exact absurd h2b hij
        · exact h2
      have hnl : FS.nlink ⟨(entryTargetAbs outDir m, j) :: fs.files⟩ i = fs.nlink i := by
        rw [FS.nlink_cons, if_neg (fun hh => hij hh.symm)]
        omega
      rw [hnl] at hge
      obtain ⟨q, hqpre, hqmem⟩ := houtside p i hpmem hpre hge
      exact ⟨q, hqpre, List.mem_cons_of_mem _ hqmem⟩
  · intro p i hp hpre hge
    have hsmem := FS.mem_of_statIno fs s j hs
    have hTmem := FS.mem_of_statIno fs _ i0 hstat
    by_cases hij : i = j
    · subst hij
      exact ⟨s, hps,
        List.mem_cons_of_mem _ ((FS.mem_unlink fs _ s i).mpr ⟨hsmem, hsne⟩)⟩
    · have hpmem : (p, i) ∈ fs.files.filter
          (fun e => !(e.1 == entryTargetAbs outDir m)) := by
        rcases List.mem_cons.mp hp with h2 | h2
        · injection h2 with h2a h2b
          exact absurd h2b hij
        · exact h2
      have hpfs : (p, i) ∈ fs.files := ((FS.mem_unlink fs _ p i).mp hpmem).1
      have hii0 : i ≠ i0 := by
        intro heq
        have hpT : p ≠ entryTargetAbs outDir m := ((FS.mem_unlink fs _ p i).mp hpmem).2
        have := FS.nlink_two fs p _ i0 (heq ▸ hpfs) hTmem hpT
        omega
      have hnl : FS.nlink ⟨(entryTargetAbs outDir m, j) ::
          fs.files.filter (fun e => !(e.1 == entryTargetAbs outDir m))⟩ i = fs.nlink i := by
        rw [FS.nlink_cons, if_neg (fun hh => hij hh.symm),
          FS.nlink_filter_keyne fs hwf _ i0 i hTmem hii0]
        omega
      rw [hnl] at hge
      obtain ⟨q, hqpre, hqmem⟩ := houtside p i hpfs hpre hge
      exact ⟨q, hqpre, List.mem_cons_of_mem _
        ((FS.mem_unlink fs _ q i).mpr ⟨hqmem, not_prefixed_ne_target outDir q m hqpre⟩)⟩
  · intro p i hp hpre hge
    have hTmem := FS.mem_of_statIno fs _ i0 hstat
    have hpfs : (p, i) ∈ fs.files := ((FS.mem_unlink fs _ p i).mp hp).1
    have hpT : p ≠ entryTargetAbs outDir m := ((FS.mem_unlink fs _ p i).mp hp).2
    have hii0 : i ≠ i0 := by
      intro heq
      have := FS.nlink_two fs p _ i0 (heq ▸ hpfs) hTmem hpT
      omega
    have hnl : FS.nlink
        ⟨fs.files.filter (fun e => !(e.1 == entryTargetAbs outDir m))⟩ i = fs.nlink i :=
      FS.nlink_filter_keyne fs hwf _ i0 i hTmem hii0
    rw [hnl] at hge
    obtain ⟨q, hqpre, hqmem⟩ := houtside p i hpfs hpre hge
    exact ⟨q, hqpre,
      (FS.mem_unlink fs _ q i).mpr ⟨hqmem, not_prefixed_ne_target outDir q m hqpre⟩⟩

theorem linkPhase_outside (outDir : Str) (es : List (Str × OpfMetadata)) (fs : FS)
    (tf : List Str) (hwf : fs.Wf)
    (hps : ∀ e ∈ es, targetPrefixed outDir e.1 = false)
    (houtside : outsideLinked outDir fs) :
    outsideLinked outDir (linkPhase outDir es fs tf).1 := by
  induction es generalizing fs tf with
  | nil => exact houtside
  | cons e1 rest ih =>
    obtain ⟨s, m⟩ := e1
    exact ih (linkFile outDir fs s m).fs _ (linkFile_wf outDir fs s m hwf)
      (fun e he => hps e (List.mem_cons_of_mem _ he))
      (linkFile_outside outDir fs s m hwf (hps (s, m) (List.mem_cons_self _ _)) houtside)

theorem linkFile_pres_pair (outDir : Str) (fs : FS) (s : Str) (m : OpfMetadata)
    (hwf : fs.Wf) (T q : Str) (i : Nat)
    (hTpre : targetPrefixed outDir T = true) (hqpre : targetPrefixed outDir q = false)
    (hT : (T, i) ∈ fs.files) (hq : (q, i) ∈ fs.files) :
    (T, i) ∈ (linkFile outDir fs s m).fs.files ∧
      (q, i) ∈ (linkFile outDir fs s m).fs.files := by
  have hqT : T ≠ q := by
    intro heq
    rw [heq, hqpre] at hTpre
    exact absurd hTpre (by simp)
  have hge : 2 ≤ fs.nlink i := FS.nlink_two fs T q i hT hq hqT
  by_cases hTt : T = entryTargetAbs outDir m
  · by_cases hft : titleFalsy m.title = true
    · rw [linkFile_falsy outDir fs s m hft]
      exact ⟨hT, hq⟩
    · have hstat : fs.statIno (entryTargetAbs outDir m) = some i := by
        rw [← hTt]
        exact FS.statIno_eq_some_of_mem fs hwf T i hT
      rw [linkFile_exists_ge2 outDir fs s m (by simpa using hft) i hstat hge]
      exact ⟨hT, hq⟩
  · exact ⟨(linkFile_frame outDir fs s m T i hTt).mpr hT,
      (linkFile_frame outDir fs s m q i
        (not_prefixed_ne_target outDir q m hqpre)).mpr hq⟩

theorem linkPhase_pres_pair (outDir : Str) (es : List (Str × OpfMetadata)) (fs : FS)
    (tf : List Str) (hwf : fs.Wf) (T q : Str) (i : Nat)
    (hTpre : targetPrefixed outDir T = true) (hqpre : targetPrefixed outDir q = false)
    (hT : (T, i) ∈ fs.files) (hq : (q, i) ∈ fs.files) :
    (T, i) ∈ (linkPhase outDir es fs tf).1.files ∧
      (q, i) ∈ (linkPhase outDir es fs tf).1.files := by
  induction es generalizing fs tf with
  | nil => exact ⟨hT, hq⟩
  | cons e1 rest ih =>
    obtain ⟨s, m⟩ := e1
    obtain ⟨hT2, hq2⟩ := linkFile_pres_pair outDir fs s m hwf T q i hTpre hqpre hT hq
    exact ih (linkFile outDir fs s m).fs _ (linkFile_wf outDir fs s m hwf) hT2 hq2

theorem linkPhase_entry_post (outDir : Str) (es : List (Str × OpfMetadata)) (fs : FS)
    (tf : List Str) (hwf : fs.Wf) (ho : outDirOk outDir)
    (hsrc : ∀ e ∈ es, (fs.statIno e.1).isSome = true ∧ targetPrefixed outDir e.1 = false) :
    ∀ e ∈ es, titleFalsy e.2.title = false →
      (∃ i, (entryTargetAbs outDir e.2, i) ∈ (linkPhase outDir es fs tf).1.files ∧
        2 ≤ (linkPhase outDir es fs tf).1.nlink i) ∧
      entryRel e.2 ∉ (linkPhase outDir es fs tf).2.1 := by
  induction es generalizing fs tf with
  | nil =>
    intro e he
    cases he
  | cons e1 rest ih =>
    obtain ⟨s, m⟩ := e1
    intro e he hte
    have hwf2 := linkFile_wf outDir fs s m hwf
    have hsrc2 : ∀ e2 ∈ rest, ((linkFile outDir fs s m).fs.statIno e2.1).isSome = true ∧
        targetPrefixed outDir e2.1 = false := by
      intro e2 he2
      obtain ⟨hex, hpre⟩ := hsrc e2 (List.mem_cons_of_mem _ he2)
      obtain ⟨j, hj⟩ := (FS.statIno_isSome_iff fs e2.1).mp hex
      have hmem2 : (e2.1, j) ∈ (linkFile outDir fs s m).fs.files :=
        (linkFile_frame outDir fs s m e2.1 j
          (not_prefixed_ne_target outDir e2.1 m hpre)).mpr hj
      exact ⟨(FS.statIno_isSome_iff _ _).mpr ⟨j, hmem2⟩, hpre⟩
    rcases List.mem_cons.mp he with heq | hin
    · subst heq
      obtain ⟨hex, hpre⟩ := hsrc (s, m) (List.mem_cons_self _ _)
      obtain ⟨j, hj⟩ := (FS.statIno_isSome_iff fs s).mp hex
      have hsne : s ≠ entryTargetAbs outDir m := not_prefixed_ne_target outDir s m hpre
      have hguard : (decide (countSlashes (entryTargetAbs outDir m) < 2) ||
          startsDoubleSlash (entryTargetAbs outDir m)) = false := by
        rw [entryTargetAbs]
        exact safeUnlink_guard_false outDir _ _ ho
      obtain ⟨hret, i, hmem, hge⟩ :=
        linkFile_success outDir fs s m hwf hte j
          (FS.statIno_eq_some_of_mem fs hwf s j hj) hsne hguard
      constructor
      · obtain ⟨hm2, hg2⟩ := linkPhase_pres_ge2 outDir rest (linkFile outDir fs s m).fs
          (match (linkFile outDir fs s m).ret with
            | some targetPath => tf.filter (fun r => !(r == targetPath))
            | none => tf) hwf2 _ i hmem hge
        exact ⟨i, hm2, hg2⟩
      · intro hmem3
        have hsub := linkPhase_remaining_subset outDir rest (linkFile outDir fs s m).fs
          (match (linkFile outDir fs s m).ret with
            | some targetPath => tf.filter (fun r => !(r == targetPath))
            | none => tf) _ hmem3
        rw [hret] at hsub
        have := (List.mem_filter.mp hsub).2
        simp at this
    · exact ih (linkFile outDir fs s m).fs
        (match (linkFile outDir fs s m).ret with
          | some targetPath => tf.filter (fun r => !(r == targetPath))
          | none => tf) hwf2 hsrc2 e hin hte

theorem linkPhase_entry_post_pair (outDir : Str) (es : List (Str × OpfMetadata)) (fs : FS)
    (tf : List Str) (hwf : fs.Wf) (ho : outDirOk outDir)
    (hsrc : ∀ e ∈ es, (fs.statIno e.1).isSome = true ∧ targetPrefixed outDir e.1 = false)
    (houtside : outsideLinked outDir fs) :
    ∀ e ∈ es, titleFalsy e.2.title = false →
      (∃ i q, (entryTargetAbs outDir e.2, i) ∈ (linkPhase outDir es fs tf).1.files ∧
        (q, i) ∈ (linkPhase outDir es fs tf).1.files ∧ targetPrefixed outDir q = false) ∧
      entryRel e.2 ∉ (linkPhase outDir es fs tf).2.1 := by
  induction es generalizing fs tf with
  | nil =>
    intro e he
    cases he
  | cons e1 rest ih =>
    obtain ⟨s, m⟩ := e1
    intro e he hte
    have hwf2 := linkFile_wf outDir fs s m hwf
    have houtside2 := linkFile_outside outDir fs s m hwf
      (hsrc (s, m) (List.mem_cons_self _ _)).2 houtside
    have hsrc2 : ∀ e2 ∈ rest, ((linkFile outDir fs s m).fs.statIno e2.1).isSome = true ∧
        targetPrefixed outDir e2.1 = false := by
      intro e2 he2
      obtain ⟨hex, hpre⟩ := hsrc e2 (List.mem_cons_of_mem _ he2)
      obtain ⟨j, hj⟩ := (FS.statIno_isSome_iff fs e2.1).mp hex
      have hmem2 : (e2.1, j) ∈ (linkFile outDir fs s m).fs.files :=
        (linkFile_frame outDir fs s m e2.1 j
          (not_prefixed_ne_target outDir e2.1 m hpre)).mpr hj
      exact ⟨(FS.statIno_isSome_iff _ _).mpr ⟨j, hmem2⟩, hpre⟩
    rcases List.mem_cons.mp he with heq | hin
    · subst heq
      obtain ⟨hex, hpre⟩ := hsrc (s, m) (List.mem_cons_self _ _)
      obtain ⟨j, hj⟩ := (FS.statIno_isSome_iff fs s).mp hex
      have hsne : s ≠ entryTargetAbs outDir m := not_prefixed_ne_target outDir s m hpre
      have hguard : (decide (countSlashes (entryTargetAbs outDir m) < 2) ||
          startsDoubleSlash (entryTargetAbs outDir m)) = false := by
        rw [entryTargetAbs]
        exact safeUnlink_guard_false outDir _ _ ho
      obtain ⟨hret, i, q, hmem, hqmem, hqpre⟩ :=
        linkFile_success_outside outDir fs s m hwf hte j
          (FS.statIno_eq_some_of_mem fs hwf s j hj) hsne hpre houtside hguard
      have hTpre : targetPrefixed outDir (entryTargetAbs outDir m) = true := by
        rw [entryTargetAbs]
        exact targetPrefixed_joinPath outDir _ _
      constructor
      · obtain ⟨hm2, hq2⟩ := linkPhase_pres_pair outDir rest (linkFile outDir fs s m).fs
          (match (linkFile outDir fs s m).ret with
            | some targetPath => tf.filter (fun r => !(r == targetPath))
            | none => tf) hwf2 _ q i hTpre hqpre hmem hqmem
        exact ⟨i, q, hm2, hq2, hqpre⟩
      · intro hmem3
        have hsub := linkPhase_remaining_subset outDir rest (linkFile outDir fs s m).fs
          (match (linkFile outDir fs s m).ret with
            | some targetPath => tf.filter (fun r => !(r == targetPath))
            | none => tf) _ hmem3
        rw [hret] at hsub
        have := (List.mem_filter.mp hsub).2
        simp at this
    · exact ih (linkFile outDir fs s m).fs
        (match (linkFile outDir fs s m).ret with
          | some targetPath => tf.filter (fun r => !(r == targetPath))
          | none => tf) hwf2 hsrc2 houtside2 e hin hte

theorem linkPhase_noop (outDir : Str) (es : List (Str × OpfMetadata)) (fs : FS)
    (tf : List Str)
    (hpost : ∀ e ∈ es, titleFalsy e.2.title = true ∨
      (titleFalsy e.2.title = false ∧
        ∃ i, fs.statIno (entryTargetAbs outDir e.2) = some i ∧ 2 ≤ fs.nlink i)) :
    (linkPhase outDir es fs tf).1 = fs ∧ (linkPhase outDir es fs tf).2.2 = [] ∧
    ∀ u ∈ tf, (∃ e ∈ es, titleFalsy e.2.title = false ∧ entryRel e.2 = u) →
      u ∉ (linkPhase outDir es fs tf).2.1 := by
  induction es generalizing tf with
  | nil =>
    refine ⟨rfl, rfl, ?_⟩
    intro u hu ⟨e, he, _⟩
    cases he
  | cons e1 rest ih =>
    obtain ⟨s, m⟩ := e1
    have hrest : ∀ e ∈ rest, titleFalsy e.2.title = true ∨
        (titleFalsy e.2.title = false ∧
          ∃ i, fs.statIno (entryTargetAbs outDir e.2) = some i ∧ 2 ≤ fs.nlink i) :=
      fun e he => hpost e (List.mem_cons_of_mem _ he)
    rcases hpost (s, m) (List.mem_cons_self _ _) with hft | ⟨hft, i, hstat, hge⟩
    · have hr := linkFile_falsy outDir fs s m hft
      obtain ⟨ih1, ih2, ih3⟩ := ih tf hrest
      refine ⟨?_, ?_, ?_⟩
      · simp only [linkPhase, hr]
        exact ih1
      · simp only [linkPhase, hr]
        simpa using ih2
      · intro u hu ⟨e, he, hte, hrel⟩
        rcases List.mem_cons.mp he with heq | hin
        · rw [heq] at hte
          rw [hte] at hft
          exact absurd hft (by simp)
        · have := ih3 u hu ⟨e, hin, hte, hrel⟩
          simp only [linkPhase, hr]
          simpa using this
    · have hr := linkFile_exists_ge2 outDir fs s m hft i hstat hge
      have htf2 : ∀ u2 ∈ tf.filter (fun r => !(r == entryRel m)), u2 ∈ tf :=
        fun u2 hu2 => List.mem_of_mem_filter hu2
      obtain ⟨ih1, ih2, ih3⟩ := ih (tf.filter (fun r => !(r == entryRel m))) hrest
      refine ⟨?_, ?_, ?_⟩
      · simp only [linkPhase, hr]
        exact ih1
      · simp only [linkPhase, hr]
        simpa using ih2
      · intro u hu ⟨e, he, hte, hrel⟩
        simp only [linkPhase, hr]
        by_cases hurel : u = entryRel m
        · intro hmem
          have hsub := linkPhase_remaining_subset outDir rest fs
            (tf.filter (fun r => !(r == entryRel m))) u (by simpa using hmem)
          have := (List.mem_filter.mp hsub).2
          rw [hurel] at this
          simp at this
        · have hu2 : u ∈ tf.filter (fun r => !(r == entryRel m)) :=
            List.mem_filter.mpr ⟨hu, by simp [hurel]⟩
          rcases List.mem_cons.mp he with heq | hin
          · rw [heq] at hrel
            exact absurd hrel.symm hurel
          · have := ih3 u hu2 ⟨e, hin, hte, hrel⟩
            simpa using this

/-! ### Prune phase lemmas -/

theorem safeUnlink_frame (fs : FS) (fp p : Str) (i : Nat) (hne : p ≠ fp) :
    ((p, i) ∈ (safeUnlink fs fp).1.files ↔ (p, i) ∈ fs.files) := by
  rcases hsu : safeUnlink fs fp with ⟨fs2, oc⟩
  cases oc with
  | refused =>
    rw [safeUnlink_refused_eq fs fs2 fp hsu]
  | errored =>
    rw [safeUnlink_errored_eq fs fs2 fp hsu]
  | removed =>
    rw [safeUnlink_removed_eq fs fs2 fp hsu]
    constructor
    · intro h
      exact ((FS.mem_unlink fs fp p i).mp h).1
    · intro h
      exact (FS.mem_unlink fs fp p i).mpr ⟨h, hne⟩

theorem getD_no_slash (parts : List Str) (n : Nat) (dflt : Str)
    (hparts : ∀ part ∈ parts, '/' ∉ part) (hdflt : '/' ∉ dflt) :
    '/' ∉ parts.getD n dflt := by
  rw [List.getD_eq_getElem?_getD]
  rcases hget : parts[n]? with _ | x
  · simpa using hdflt
  · have := List.getElem?_mem hget
    simpa using hparts x this

theorem prunePhase_frame_root (outDir : Str) (unused : List Str) (fs : FS) (p : Str) (i : Nat)
    (hne : ∀ a b, '/' ∉ a → '/' ∉ b → p ≠ joinPath outDir a b) :
    ((p, i) ∈ (prunePhase outDir unused fs).1.files ↔ (p, i) ∈ fs.files) := by
  induction unused generalizing fs with
  | nil => exact Iff.rfl
  | cons u rest ih =>
    have hsn : '/' ∉ (jsSplitSlash u).getD 0 ("undefined".toList) :=
      getD_no_slash _ 0 _ (jsSplitSlash_parts_no_slash u) (by decide)
    have hfn : '/' ∉ (jsSplitSlash u).getD 1 ("undefined".toList) :=
      getD_no_slash _ 1 _ (jsSplitSlash_parts_no_slash u) (by decide)
    have hstep := safeUnlink_frame fs
      (joinPath outDir ((jsSplitSlash u).getD 0 ("undefined".toList))
        ((jsSplitSlash u).getD 1 ("undefined".toList))) p i (hne _ _ hsn hfn)
    exact (ih _).trans hstep

theorem prunePhase_ops_shape (outDir : Str) (unused : List Str) (fs : FS) :
    ∀ op ∈ (prunePhase outDir unused fs).2, ∃ a b, '/' ∉ a ∧ '/' ∉ b ∧
      op = .rmfile (joinPath outDir a b) := by
  induction unused generalizing fs with
  | nil =>
    intro op hop
    cases hop
  | cons u rest ih =>
    intro op hop
    have hsn : '/' ∉ (jsSplitSlash u).getD 0 ("undefined".toList) :=
      getD_no_slash _ 0 _ (jsSplitSlash_parts_no_slash u) (by decide)
    have hfn : '/' ∉ (jsSplitSlash u).getD 1 ("undefined".toList) :=
      getD_no_slash _ 1 _ (jsSplitSlash_parts_no_slash u) (by decide)
    simp only [prunePhase] at hop
    rcases List.mem_append.mp hop with h | h
    · rcases hoc : (safeUnlink fs (joinPath outDir ((jsSplitSlash u).getD 0 ("undefined".toList))
        ((jsSplitSlash u).getD 1 ("undefined".toList)))).2 with _ | _ | _ <;>
        rw [hoc] at h
      · cases h
      · rcases List.mem_singleton.mp h with rfl
        exact ⟨_, _, hsn, hfn, rfl⟩
      · cases h
    · exact ih _ op h

theorem prunePhase_mem (outDir : Str) (unused : List Str) (fs : FS) (ho : outDirOk outDir)
    (hwfu : ∀ u ∈ unused, ∃ d f, '/' ∉ d ∧ '/' ∉ f ∧ d ≠ [] ∧ f ≠ [] ∧ u = relPath d f) :
    ∀ p i, ((p, i) ∈ (prunePhase outDir unused fs).1.files ↔
      (p, i) ∈ fs.files ∧ ∀ u ∈ unused, p ≠ (outDir ++ ['/']) ++ u) := by
  induction unused generalizing fs with
  | nil =>
    intro p i
    constructor
    · intro h
      exact ⟨h, fun u hu => absurd hu (List.not_mem_nil u)⟩
    · exact fun h => h.1
  | cons u rest ih =>
    intro p i
    obtain ⟨d, f, hnd, hnf, hdne, hfne, hurel⟩ := hwfu u (List.mem_cons_self _ _)
    have hwfur : ∀ u2 ∈ rest, ∃ d f, '/' ∉ d ∧ '/' ∉ f ∧ d ≠ [] ∧ f ≠ [] ∧
        u2 = relPath d f := fun u2 hu2 => hwfu u2 (List.mem_cons_of_mem _ hu2)
    subst hurel
    have hsplit := jsSplitSlash_relPath d f hnd hnf
    have hguard := safeUnlink_guard_false outDir d f ho
    simp only [prunePhase, hsplit, List.getD_cons_zero, List.getD_cons_succ]
    rcases hstat : fs.statIno (joinPath outDir d f) with _ | i0
    · have hnone := FS.unlink_none fs _ hstat
      have hsu : safeUnlink fs (joinPath outDir d f) = (fs, .errored) := by
        rw [safeUnlink_pass fs _ hguard, hnone]
      simp only [hsu]
      rw [ih fs hwfur p i]
      constructor
      · rintro ⟨hm, hrest⟩
        refine ⟨hm, ?_⟩
        intro u2 hu2
        rcases List.mem_cons.mp hu2 with heq | hin
        · subst heq
          intro heqp
          rw [← joinPath_eq] at heqp
          rw [heqp] at hm
          exact (FS.statIno_none_iff fs _).mp hstat i hm
        · exact hrest u2 hin
      · rintro ⟨hm, hall⟩
        exact ⟨hm, fun u2 hu2 => hall u2 (List.mem_cons_of_mem _ hu2)⟩
    · have hunl := FS.unlink_succeeds fs _ (by rw [hstat]; rfl)
      have hsu : safeUnlink fs (joinPath outDir d f) =
          (⟨fs.files.filter (fun e => !(e.1 == joinPath outDir d f))⟩, .removed) := by
        rw [safeUnlink_pass fs _ hguard, hunl]
      simp only [hsu]
      rw [ih _ hwfur p i, FS.mem_unlink]
      constructor
      · rintro ⟨⟨hm, hne⟩, hrest⟩
        refine ⟨hm, ?_⟩
        intro u2 hu2
        rcases List.mem_cons.mp hu2 with heq | hin
        · subst heq
          rw [← joinPath_eq]
          exact hne
        · exact hrest u2 hin
      · rintro ⟨hm, hall⟩
        refine ⟨⟨hm, ?_⟩, fun u2 hu2 => hall u2 (List.mem_cons_of_mem _ hu2)⟩
        have := hall _ (List.mem_cons_self _ _)
        rw [← joinPath_eq] at this
        exact this

/-! ### Target scanner lemmas -/

theorem getFiles_mem (fs : FS) (outDir : Str) (u : Str) :
    u ∈ getFilesInTargetDir fs outDir ↔
      ∃ i d f, (joinPath outDir d f, i) ∈ fs.files ∧ '/' ∉ d ∧ '/' ∉ f ∧
        d ≠ [] ∧ f ≠ [] ∧ (".epub".toList).isSuffixOf f = true ∧ u = relPath d f := by
  unfold getFilesInTargetDir
  rw [List.mem_filterMap]
  constructor
  · rintro ⟨e, hmem, heq⟩
    rcases hpt : parseTargetRel outDir e.1 with _ | ⟨d, f⟩
    · simp only [hpt] at heq
      exact absurd heq (by simp)
    · simp only [hpt] at heq
      split at heq
      · rename_i hsuf
        rw [Option.some.injEq] at heq
        obtain ⟨hjoin, hdne, hfne, hnd, hnf⟩ := parseTargetRel_some outDir e.1 d f hpt
        refine ⟨e.2, d, f, ?_, hnd, hnf, hdne, hfne, hsuf, heq.symm⟩
        rw [← hjoin]
        exact hmem
      · exact absurd heq (by simp)
  · rintro ⟨i, d, f, hmem, hnd, hnf, hdne, hfne, hsuf, hu⟩
    refine ⟨(joinPath outDir d f, i), hmem, ?_⟩
    have : parseTargetRel outDir (joinPath outDir d f, i).1 = some (d, f) :=
      parseTargetRel_joinPath outDir d f hnd hnf hdne hfne
    simp only [this, hsuf, if_pos, hu]

theorem syncFiles_eq (outDir : Str) (ss : List (Str × OpfMetadata)) (fs : FS) :
    syncFiles outDir ss fs =
      ((prunePhase outDir (linkPhase outDir ss fs (getFilesInTargetDir fs outDir)).2.1
        (linkPhase outDir ss fs (getFilesInTargetDir fs outDir)).1).1,
       (linkPhase outDir ss fs (getFilesInTargetDir fs outDir)).2.2 ++
       (prunePhase outDir (linkPhase outDir ss fs (getFilesInTargetDir fs outDir)).2.1
        (linkPhase outDir ss fs (getFilesInTargetDir fs outDir)).1).2) := rfl

/-! ### Further helper lemmas for the pass level theorems -/

theorem entryTargetAbs_eq_append (outDir : Str) (m : OpfMetadata) :
    entryTargetAbs outDir m = (outDir ++ ['/']) ++ entryRel m := by
  rw [entryTargetAbs, entryRel, joinPath_eq]

theorem not_prefixed_ne_append (outDir q x : Str) (h : targetPrefixed outDir q = false) :
    q ≠ (outDir ++ ['/']) ++ x := by
  intro heq
  have : targetPrefixed outDir ((outDir ++ ['/']) ++ x) = true := by
    rw [targetPrefixed, List.isPrefixOf_iff_prefix]
    exact List.prefix_append _ _
  rw [heq, this] at h
  exact absurd h (by simp)

theorem root_ne_joinPath (outDir g a b : Str) (hg : '/' ∉ g) :
    outDir ++ '/' :: g ≠ joinPath outDir a b := by
  intro heq
  rw [joinPath_eq] at heq
  have heq2 : outDir ++ '/' :: g = outDir ++ '/' :: relPath a b := by
    rw [heq]
    simp [List.append_assoc]
  have := List.append_cancel_left heq2
  rw [List.cons.injEq] at this
  apply hg
  rw [this.2, relPath]
  exact List.mem_append.mpr (Or.inr (List.mem_cons_self _ _))

theorem linkFile_absent (outDir : Str) (fs : FS) (s : Str) (m : OpfMetadata)
    (hf : titleFalsy m.title = false) (j : Nat) (hs : fs.statIno s = some j)
    (ht : fs.statIno (entryTargetAbs outDir m) = none) :
    linkFile outDir fs s m =
      ⟨⟨(entryTargetAbs outDir m, j) :: fs.files⟩, some (entryRel m),
        [.mklink s (entryTargetAbs outDir m)]⟩ := by
  have hf2 : ¬ titleFalsy m.title = true := by simp [hf]
  rw [entryTargetAbs] at ht ⊢
  simp only [linkFile, if_neg hf2, ht, FS.link_succeeds fs s _ j hs ht, entryRel]

theorem prunePhase_wf (outDir : Str) (unused : List Str) (fs : FS) (hwf : fs.Wf) :
    (prunePhase outDir unused fs).1.Wf := by
  induction unused generalizing fs with
  | nil => exact hwf
  | cons u rest ih =>
    apply ih
    rcases hsu : safeUnlink fs (joinPath outDir ((jsSplitSlash u).getD 0 ("undefined".toList))
      ((jsSplitSlash u).getD 1 ("undefined".toList))) with ⟨fs2, oc⟩
    show fs2.Wf
    cases oc with
    | refused => rw [safeUnlink_refused_eq fs fs2 _ hsu]; exact hwf
    | errored => rw [safeUnlink_errored_eq fs fs2 _ hsu]; exact hwf
    | removed => rw [safeUnlink_removed_eq fs fs2 _ hsu]; exact FS.Wf.filterKeep fs hwf _

/-- C1: after one reconciliation pass, a file of the target tree whose
relative path is reconfirmed by no current source entry is no longer in
the target tree, while one with a corresponding (usable title, same
computed relative path) source entry is still there.  An orphaned
confirmed target is removed and relinked inside the linker, so it too
ends the pass present. -/
theorem syncFiles_prune_correct (outDir : Str) (sources : List (Str × OpfMetadata))
    (fs : FS) (hwf : fs.Wf) (ho : outDirOk outDir)
    (hsrc : sourcesOk outDir fs sources) :
    (∀ u ∈ getFilesInTargetDir fs outDir, ¬ corresponds sources u →
      u ∉ getFilesInTargetDir (syncFiles outDir sources fs).1 outDir) ∧
    (∀ u ∈ getFilesInTargetDir fs outDir, corresponds sources u →
      u ∈ getFilesInTargetDir (syncFiles outDir sources fs).1 outDir) := by
  rw [syncFiles_eq]
  set TF := getFilesInTargetDir fs outDir with hTFdef
  set L := linkPhase outDir sources fs TF with hLdef
  set P := prunePhase outDir L.2.1 L.1 with hPdef
  have hwfu : ∀ u ∈ L.2.1, ∃ d f, '/' ∉ d ∧ '/' ∉ f ∧ d ≠ [] ∧ f ≠ [] ∧
      u = relPath d f := by
    intro u hu
    have hinTF := linkPhase_remaining_subset outDir sources fs TF u hu
    obtain ⟨i, d, f, hmem, hnd, hnf, hdne, hfne, hsuf, hurel⟩ :=
      (getFiles_mem fs outDir u).mp hinTF
    exact ⟨d, f, hnd, hnf, hdne, hfne, hurel⟩
  have hPmem := prunePhase_mem outDir L.2.1 L.1 ho hwfu
  constructor
  · intro u hu hnc
    obtain ⟨i, d, f, hmem, hnd, hnf, hdne, hfne, hsuf, hurel⟩ :=
      (getFiles_mem fs outDir u).mp hu
    have hrem : u ∈ L.2.1 := linkPhase_stale_kept outDir sources fs TF u hu
      (fun e he hcc => hnc ⟨e, he, hcc⟩)
    intro hfin
    obtain ⟨i2, d2, f2, hmem2, hnd2, hnf2, _, _, _, hurel2⟩ :=
      (getFiles_mem P.1 outDir u).mp hfin
    obtain ⟨hd2, hf2⟩ := relPath_inj d2 f2 d f hnd2 hnf2 hnd hnf (by rw [← hurel2, ← hurel])
    have hmem2b : (joinPath outDir d f, i2) ∈ P.1.files := by
      rw [← hd2, ← hf2]
      exact hmem2
    have hchar := (hPmem (joinPath outDir d f) i2).mp hmem2b
    apply hchar.2 u hrem
    rw [joinPath_eq, hurel]
  · intro u hu hc
    obtain ⟨e, he, hte, hrel⟩ := hc
    obtain ⟨⟨i, hTmem, hge⟩, hnotrem⟩ :=
      linkPhase_entry_post outDir sources fs TF hwf ho hsrc e he hte
    have habs : entryTargetAbs outDir e.2 = (outDir ++ ['/']) ++ u := by
      rw [entryTargetAbs_eq_append, hrel]
    have hPin : (entryTargetAbs outDir e.2, i) ∈ P.1.files := by
      rw [hPmem (entryTargetAbs outDir e.2) i]
      refine ⟨hTmem, ?_⟩
      intro u2 hu2 heq
      rw [habs] at heq
      have hueq := List.append_cancel_left heq
      apply hnotrem
      rw [hrel, hueq]
      exact hu2
    obtain ⟨i0, d, f, hmem, hnd, hnf, hdne, hfne, hsuf, hurel⟩ :=
      (getFiles_mem fs outDir u).mp hu
    have habs2 : entryTargetAbs outDir e.2 = joinPath outDir d f := by
      rw [habs, hurel, joinPath_eq]
    rw [habs2] at hPin
    exact (getFiles_mem P.1 outDir u).mpr ⟨i, d, f, hPin, hnd, hnf, hdne, hfne, hsuf, hurel⟩

/-- C1 witness: one source entry (title X) whose mirrored file already
exists, plus a stale target file.  After the pass the stale file is gone
and the mirrored file is still listed. -/
theorem syncFiles_prune_correct_witness :
    ("Stale/st.epub".toList) ∉ getFilesInTargetDir
      (syncFiles ("o".toList)
        [("sA".toList,
          { id := none, title := some ("X".toList), creator := none,
            series := none, seriesIndex := none })]
        ⟨[("sA".toList, 1), ("o/Stale/st.epub".toList, 5),
          ("o/X - Unknown Creator/X - Unknown Creator.epub".toList, 1)]⟩).1 ("o".toList) ∧
    ("X - Unknown Creator/X - Unknown Creator.epub".toList) ∈ getFilesInTargetDir
      (syncFiles ("o".toList)
        [("sA".toList,
          { id := none, title := some ("X".toList), creator := none,
            series := none, seriesIndex := none })]
        ⟨[("sA".toList, 1), ("o/Stale/st.epub".toList, 5),
          ("o/X - Unknown Creator/X - Unknown Creator.epub".toList, 1)]⟩).1 ("o".toList) := by
  constructor
  · exact (syncFiles_prune_correct ("o".toList)
      [("sA".toList,
        { id := none, title := some ("X".toList), creator := none,
          series := none, seriesIndex := none })]
      ⟨[("sA".toList, 1), ("o/Stale/st.epub".toList, 5),
        ("o/X - Unknown Creator/X - Unknown Creator.epub".toList, 1)]⟩
      (by decide) (by decide) (by decide)).1 ("Stale/st.epub".toList)
      (by decide) (by decide)
  · exact (syncFiles_prune_correct ("o".toList)
      [("sA".toList,
        { id := none, title := some ("X".toList), creator := none,
          series := none, seriesIndex := none })]
      ⟨[("sA".toList, 1), ("o/Stale/st.epub".toList, 5),
        ("o/X - Unknown Creator/X - Unknown Creator.epub".toList, 1)]⟩
      (by decide) (by decide) (by decide)).2
      ("X - Unknown Creator/X - Unknown Creator.epub".toList)
      (by decide) (by decide)

/-- C3 as amended: when two source entries of one pass map to the identical
target path over a target tree with no mirrored files, the FIRST processed
entry wins the slot: the pass creates exactly one hardlink, from the first
source, and the later entry finds a target with two links and leaves it
untouched. -/
theorem syncFiles_collision_first_wins (outDir s1 s2 : Str) (m1 m2 : OpfMetadata)
    (fs : FS) (hwf : fs.Wf)
    (hnp : ∀ e ∈ fs.files, targetPrefixed outDir e.1 = false)
    (ht1 : titleFalsy m1.title = false) (ht2 : titleFalsy m2.title = false)
    (hrel : entryRel m1 = entryRel m2)
    (i1 : Nat) (hs1 : fs.statIno s1 = some i1)
    (hp1 : targetPrefixed outDir s1 = false) :
    (syncFiles outDir [(s1, m1), (s2, m2)] fs).1.statIno (entryTargetAbs outDir m1)
      = some i1 ∧
    (syncFiles outDir [(s1, m1), (s2, m2)] fs).2 =
      [FsOp.mklink s1 (entryTargetAbs outDir m1)] := by
  have hTpre : ∀ m : OpfMetadata, targetPrefixed outDir (entryTargetAbs outDir m) = true := by
    intro m
    rw [entryTargetAbs]
    exact targetPrefixed_joinPath outDir _ _
  have hTF : getFilesInTargetDir fs outDir = [] := by
    rw [List.eq_nil_iff_forall_not_mem]
    intro u hu
    obtain ⟨i, d, f, hmem, _, _, _, _, _, _⟩ := (getFiles_mem fs outDir u).mp hu
    have := hnp (joinPath outDir d f, i) hmem
    rw [targetPrefixed_joinPath outDir d f] at this
    exact absurd this (by simp)
  have hstatT : fs.statIno (entryTargetAbs outDir m1) = none := by
    rw [FS.statIno_none_iff]
    intro i hmem
    have := hnp (entryTargetAbs outDir m1, i) hmem
    rw [hTpre m1] at this
    exact absurd this (by simp)
  have hr1 := linkFile_absent outDir fs s1 m1 ht1 i1 hs1 hstatT
  have hs1mem := FS.mem_of_statIno fs s1 i1 hs1
  have hsne : s1 ≠ entryTargetAbs outDir m1 := not_prefixed_ne_target outDir s1 m1 hp1
  have hstat1 : FS.statIno ⟨(entryTargetAbs outDir m1, i1) :: fs.files⟩
      (entryTargetAbs outDir m1) = some i1 := by
    unfold FS.statIno
    rw [List.find?_cons_of_pos _ (by simp)]
    rfl
  have hge : 2 ≤ FS.nlink ⟨(entryTargetAbs outDir m1, i1) :: fs.files⟩ i1 :=
    FS.nlink_two _ (entryTargetAbs outDir m1) s1 i1 (List.mem_cons_self _ _)
      (List.mem_cons_of_mem _ hs1mem) (fun h => hsne h.symm)
  have hT2 : entryTargetAbs outDir m2 = entryTargetAbs outDir m1 := by
    rw [entryTargetAbs_eq_append, entryTargetAbs_eq_append, hrel]
  have hr2 : linkFile outDir ⟨(entryTargetAbs outDir m1, i1) :: fs.files⟩ s2 m2 =
      ⟨⟨(entryTargetAbs outDir m1, i1) :: fs.files⟩, some (entryRel m2), []⟩ :=
    linkFile_exists_ge2 outDir _ s2 m2 ht2 i1 (by rw [hT2]; exact hstat1) hge
  rw [syncFiles_eq, hTF]
  simp only [linkPhase, hr1, hr2, List.filter_nil, prunePhase, List.append_nil]
  exact ⟨hstat1, trivial⟩

/-- C3 amended witness: two concrete entries with the same metadata and
distinct inodes 1 and 2; the pass links the target to inode 1 and performs
exactly that one link. -/
theorem syncFiles_collision_first_wins_witness :
    (syncFiles ("o".toList)
        [("sA".toList,
          { id := none, title := some ("X".toList), creator := none,
            series := none, seriesIndex := none }),
         ("sB".toList,
          { id := none, title := some ("X".toList), creator := none,
            series := none, seriesIndex := none })]
        ⟨[("sA".toList, 1), ("sB".toList, 2)]⟩).1.statIno
      (entryTargetAbs ("o".toList)
        { id := none, title := some ("X".toList), creator := none,
          series := none, seriesIndex := none }) = some 1 ∧
    (syncFiles ("o".toList)
        [("sA".toList,
          { id := none, title := some ("X".toList), creator := none,
            series := none, seriesIndex := none }),
         ("sB".toList,
          { id := none, title := some ("X".toList), creator := none,
            series := none, seriesIndex := none })]
        ⟨[("sA".toList, 1), ("sB".toList, 2)]⟩).2 =
      [FsOp.mklink ("sA".toList)
        (entryTargetAbs ("o".toList)
          { id := none, title := some ("X".toList), creator := none,
            series := none, seriesIndex := none })] :=
  syncFiles_collision_first_wins ("o".toList) ("sA".toList) ("sB".toList)
    { id := none, title := some ("X".toList), creator := none,
      series := none, seriesIndex := none }
    { id := none, title := some ("X".toList), creator := none,
      series := none, seriesIndex := none }
    ⟨[("sA".toList, 1), ("sB".toList, 2)]⟩
    (by decide) (by decide) (by decide) (by decide) rfl 1 (by decide) (by decide)

/-- C2 as amended: a second pass over an unchanged source list performs no
hardlink creation and no removal, and leaves the filesystem exactly as the
first pass left it, provided every multiply linked file in the initial
target tree shares its inode with some path outside the target tree (as
is the case when target files mirror source files).  Without that proviso
the first pass can prune a stale twin of a confirmed target, dropping the
confirmed target to one link and forcing the second pass to relink it. -/
theorem syncFiles_idempotent (outDir : Str) (sources : List (Str × OpfMetadata)) (fs : FS)
    (hwf : fs.Wf) (ho : outDirOk outDir) (hsrc : sourcesOk outDir fs sources)
    (houtside : outsideLinked outDir fs) :
    (syncFiles outDir sources (syncFiles outDir sources fs).1).2 = [] ∧
    (syncFiles outDir sources (syncFiles outDir sources fs).1).1 =
      (syncFiles outDir sources fs).1 := by
  set TF := getFilesInTargetDir fs outDir with hTFdef
  set L := linkPhase outDir sources fs TF with hLdef
  have hLwf : L.1.Wf := linkPhase_wf outDir sources fs TF hwf
  have hwfu : ∀ u ∈ L.2.1, ∃ d f, '/' ∉ d ∧ '/' ∉ f ∧ d ≠ [] ∧ f ≠ [] ∧
      u = relPath d f := by
    intro u hu
    have hinTF := linkPhase_remaining_subset outDir sources fs TF u hu
    obtain ⟨i, d, f, hmem, hnd, hnf, hdne, hfne, hsuf, hurel⟩ :=
      (getFiles_mem fs outDir u).mp hinTF
    exact ⟨d, f, hnd, hnf, hdne, hfne, hurel⟩
  have hPmem := prunePhase_mem outDir L.2.1 L.1 ho hwfu
  have hwf1 : (prunePhase outDir L.2.1 L.1).1.Wf := prunePhase_wf outDir L.2.1 L.1 hLwf
  have hpost : ∀ e ∈ sources, titleFalsy e.2.title = true ∨
      (titleFalsy e.2.title = false ∧
        ∃ i, (syncFiles outDir sources fs).1.statIno (entryTargetAbs outDir e.2) = some i ∧
          2 ≤ (syncFiles outDir sources fs).1.nlink i) := by
    intro e he
    by_cases hft : titleFalsy e.2.title = true
    · exact Or.inl hft
    · right
      have hte : titleFalsy e.2.title = false := by simpa using hft
      obtain ⟨⟨i, q, hT, hq, hqpre⟩, hnr⟩ :=
        linkPhase_entry_post_pair outDir sources fs TF hwf ho hsrc houtside e he hte
      have hTP : (entryTargetAbs outDir e.2, i) ∈ (prunePhase outDir L.2.1 L.1).1.files := by
        rw [hPmem (entryTargetAbs outDir e.2) i]
        refine ⟨hT, ?_⟩
        intro u2 hu2 heq
        rw [entryTargetAbs_eq_append] at heq
        have hueq := List.append_cancel_left heq
        apply hnr
        rw [hueq]
        exact hu2
      have hqP : (q, i) ∈ (prunePhase outDir L.2.1 L.1).1.files := by
        rw [hPmem q i]
        exact ⟨hq, fun u2 hu2 => not_prefixed_ne_append outDir q u2 hqpre⟩
      have hqneT : entryTargetAbs outDir e.2 ≠ q := by
        intro heq
        have hTpre : targetPrefixed outDir (entryTargetAbs outDir e.2) = true := by
          rw [entryTargetAbs]
          exact targetPrefixed_joinPath outDir _ _
        rw [heq, hqpre] at hTpre
        exact absurd hTpre (by simp)
      have hge1 : 2 ≤ (prunePhase outDir L.2.1 L.1).1.nlink i :=
        FS.nlink_two _ _ q i hTP hqP hqneT
      have hstat1 : (prunePhase outDir L.2.1 L.1).1.statIno (entryTargetAbs outDir e.2)
          = some i :=
        FS.statIno_eq_some_of_mem _ hwf1 _ i hTP
      exact ⟨hte, i, hstat1, hge1⟩
  have hcov : ∀ u ∈ getFilesInTargetDir (syncFiles outDir sources fs).1 outDir,
      corresponds sources u := by
    intro u hu
    obtain ⟨i, d, f, hmem, hnd, hnf, hdne, hfne, hsuf, hurel⟩ :=
      (getFiles_mem (syncFiles outDir sources fs).1 outDir u).mp hu
    have hmemP : (joinPath outDir d f, i) ∈ (prunePhase outDir L.2.1 L.1).1.files := hmem
    have hchar := (hPmem (joinPath outDir d f) i).mp hmemP
    rcases linkPhase_mem_new outDir sources fs TF _ i hchar.1 with hfs0 | ⟨e, he, hte, heq⟩
    · have huTF : u ∈ TF := (getFiles_mem fs outDir u).mpr
        ⟨i, d, f, hfs0, hnd, hnf, hdne, hfne, hsuf, hurel⟩
      by_contra hnc
      have hrem : u ∈ L.2.1 := linkPhase_stale_kept outDir sources fs TF u huTF
        (fun e2 he2 hcc => hnc ⟨e2, he2, hcc⟩)
      exact hchar.2 u hrem (by rw [joinPath_eq, hurel])
    · refine ⟨e, he, hte, ?_⟩
      rw [entryTargetAbs_eq_append, joinPath_eq] at heq
      have hcancel := List.append_cancel_left heq
      exact hcancel.symm.trans hurel.symm
  obtain ⟨hL2fs, hL2ops, hL2cov⟩ := linkPhase_noop outDir sources
    (syncFiles outDir sources fs).1
    (getFilesInTargetDir (syncFiles outDir sources fs).1 outDir) hpost
  have hrem2 : (linkPhase outDir sources (syncFiles outDir sources fs).1
      (getFilesInTargetDir (syncFiles outDir sources fs).1 outDir)).2.1 = [] := by
    rw [List.eq_nil_iff_forall_not_mem]
    intro u hu
    have huTF1 := linkPhase_remaining_subset outDir sources
      (syncFiles outDir sources fs).1
      (getFilesInTargetDir (syncFiles outDir sources fs).1 outDir) u hu
    exact hL2cov u huTF1 (hcov u huTF1) hu
  have hprune2 : prunePhase outDir
      (linkPhase outDir sources (syncFiles outDir sources fs).1
        (getFilesInTargetDir (syncFiles outDir sources fs).1 outDir)).2.1
      (linkPhase outDir sources (syncFiles outDir sources fs).1
        (getFilesInTargetDir (syncFiles outDir sources fs).1 outDir)).1
      = ((syncFiles outDir sources fs).1, []) := by
    rw [hrem2, hL2fs]
    rfl
  constructor
  · rw [syncFiles_eq outDir sources (syncFiles outDir sources fs).1, hprune2, hL2ops]
    rfl
  · rw [syncFiles_eq outDir sources (syncFiles outDir sources fs).1, hprune2]

theorem syncFiles_idempotent_witness :
    (syncFiles ("o".toList)
      [("sA".toList,
        { id := none, title := some ("X".toList), creator := none,
          series := none, seriesIndex := none })]
      (syncFiles ("o".toList)
        [("sA".toList,
          { id := none, title := some ("X".toList), creator := none,
            series := none, seriesIndex := none })]
        ⟨[("sA".toList, 1),
          ("o/X - Unknown Creator/X - Unknown Creator.epub".toList, 1)]⟩).1).2 = [] ∧
    (syncFiles ("o".toList)
      [("sA".toList,
        { id := none, title := some ("X".toList), creator := none,
          series := none, seriesIndex := none })]
      (syncFiles ("o".toList)
        [("sA".toList,
          { id := none, title := some ("X".toList), creator := none,
            series := none, seriesIndex := none })]
        ⟨[("sA".toList, 1),
          ("o/X - Unknown Creator/X - Unknown Creator.epub".toList, 1)]⟩).1).1 =
      (syncFiles ("o".toList)
        [("sA".toList,
          { id := none, title := some ("X".toList), creator := none,
            series := none, seriesIndex := none })]
        ⟨[("sA".toList, 1),
          ("o/X - Unknown Creator/X - Unknown Creator.epub".toList, 1)]⟩).1 :=
  syncFiles_idempotent ("o".toList)
    [("sA".toList,
      { id := none, title := some ("X".toList), creator := none,
        series := none, seriesIndex := none })]
    ⟨[("sA".toList, 1),
      ("o/X - Unknown Creator/X - Unknown Creator.epub".toList, 1)]⟩
    (by decide) (by decide) (by decide) (by decide)

/-- C10: a reconciliation pass never deletes a file located directly at the
target root.  Every path enumerated by getFilesInTargetDir has the two
component form subdirectory/filename; every removal the prune stage of
syncFiles performs names a path of the form outDir/subdirectory/filename
with slash free components; and any root level entry outDir/g with g free
of separators that exists before the pass still exists after the whole
pass. -/
theorem syncFiles_root_safe (outDir : Str) (sources : List (Str × OpfMetadata)) (fs : FS) :
    (∀ u ∈ getFilesInTargetDir fs outDir, ∃ d f, d ≠ [] ∧ f ≠ [] ∧ '/' ∉ d ∧ '/' ∉ f ∧
      u = relPath d f) ∧
    (∀ op ∈ (prunePhase outDir
        (linkPhase outDir sources fs (getFilesInTargetDir fs outDir)).2.1
        (linkPhase outDir sources fs (getFilesInTargetDir fs outDir)).1).2,
      ∃ a b, '/' ∉ a ∧ '/' ∉ b ∧ op = FsOp.rmfile (joinPath outDir a b)) ∧
    (∀ g i, '/' ∉ g → (outDir ++ '/' :: g, i) ∈ fs.files →
      (outDir ++ '/' :: g, i) ∈ (syncFiles outDir sources fs).1.files) := by
  refine ⟨?_, ?_, ?_⟩
  · intro u hu
    obtain ⟨i, d, f, hmem, hnd, hnf, hdne, hfne, hsuf, hurel⟩ :=
      (getFiles_mem fs outDir u).mp hu
    exact ⟨d, f, hdne, hfne, hnd, hnf, hurel⟩
  · intro op hop
    exact prunePhase_ops_shape outDir _ _ op hop
  · intro g i hg hmem
    have h1 : (outDir ++ '/' :: g, i) ∈
        (linkPhase outDir sources fs (getFilesInTargetDir fs outDir)).1.files :=
      (linkPhase_frame outDir sources fs (getFilesInTargetDir fs outDir) (outDir ++ '/' :: g) i
        (fun e he => Or.inr (root_ne_joinPath outDir g _ _ hg))).mpr hmem
    exact (prunePhase_frame_root outDir
      (linkPhase outDir sources fs (getFilesInTargetDir fs outDir)).2.1
      (linkPhase outDir sources fs (getFilesInTargetDir fs outDir)).1
      (outDir ++ '/' :: g) i
      (fun a b ha hb => root_ne_joinPath outDir g a b hg)).mpr h1

theorem syncFiles_root_safe_witness :
    ("o".toList ++ '/' :: "root.epub".toList, 2) ∈
      (syncFiles ("o".toList) []
        ⟨[("o/root.epub".toList, 2), ("o/d/x.epub".toList, 1)]⟩).1.files :=
  (syncFiles_root_safe ("o".toList) []
    ⟨[("o/root.epub".toList, 2), ("o/d/x.epub".toList, 1)]⟩).2.2
    ("root.epub".toList) 2 (by decide) (by decide)
